import Mathlib

/-!
Verification of the response-size management and cursor-pagination subsystem
of the garmin-connect-mcp repository (src/utils.py and src/cache.py).

Python values are modelled by `PyVal` (JSON-representable values plus a
`pforeign` constructor standing for any non-JSON-serializable Python object
such as a set or datetime).  Python dicts are modelled as insertion-ordered
association lists with the usual CPython insert-or-overwrite semantics
(`dictInsert`), which keep keys unique.  Wall-clock time (`datetime.now()`)
is passed explicitly as a natural number; `uuid.uuid4().hex[:8]` is passed
explicitly as a string parameter.
-/

namespace Garmin

/-- Model of a Python value as passed around by `utils.py` / `cache.py`.
`pforeign` stands for a Python object that `json.dumps` cannot serialize. -/
inductive PyVal : Type where
  | pnull : PyVal
  | pbool : Bool → PyVal
  | pint : Int → PyVal
  | pstr : String → PyVal
  | plist : List PyVal → PyVal
  | pdict : List (String × PyVal) → PyVal
  | pforeign : PyVal

open PyVal

/-- Python `dict.get k` on an insertion-ordered association list. -/
def dictGet (s : List (String × α)) (k : String) : Option α :=
  match s with
  | [] => none
  | (k', v) :: rest => if k' = k then some v else dictGet rest k

/-- Python `d[k] = v`: overwrite in place if the key is present (CPython keeps
the original position), otherwise append. -/
def dictInsert (s : List (String × α)) (k : String) (v : α) : List (String × α) :=
  match s with
  | [] => [(k, v)]
  | (k', v') :: rest => if k' = k then (k, v) :: rest else (k', v') :: dictInsert rest k v

/-- Python `del d[k]` (dicts hold each key at most once, so filtering is
equivalent to deleting the single occurrence). -/
def removeKey (s : List (String × α)) (k : String) : List (String × α) :=
  s.filter (fun kv => kv.1 ≠ k)

/-! ## Overflow store (`src/cache.py`, class `OverflowDataCache`)

The class-level mutable dict `_cache` is modelled as an explicit
`OverflowStore` value threaded through each operation.  The asyncio lock
serializes the bodies, so each method is a single atomic state transition. -/

/-- One entry of `OverflowDataCache._cache` (cache.py lines 38-43). -/
structure OverflowEntry where
  data : PyVal
  expires_at : Nat
  activity_id : String
  field_name : String

/-- The `OverflowDataCache._cache` dict. -/
abbrev OverflowStore := List (String × OverflowEntry)

/-- `OverflowDataCache.store` (cache.py lines 20-47): store the payload under
`{activity_id}_{field_name}_{uuid8}` with expiry `now + ttl_seconds` and
return the `overflow://` resource URI. -/
def cacheStore (store : OverflowStore) (activity_id field_name : String)
    (data : PyVal) (ttl_seconds : Nat) (now : Nat) (uuid_hex : String) :
    String × OverflowStore :=
  let cache_id := activity_id ++ "_" ++ field_name ++ "_" ++ uuid_hex
  ("overflow://" ++ cache_id,
   dictInsert store cache_id ⟨data, now + ttl_seconds, activity_id, field_name⟩)

/-- `OverflowDataCache.get` (cache.py lines 49-72): look the entry up; a missing
entry yields `none`; an entry with `now > expires_at` is deleted and yields
`none`; otherwise the stored payload is returned.  Returns the result together
with the store left behind by the call. -/
def cacheGet (store : OverflowStore) (cache_id : String) (now : Nat) :
    Option PyVal × OverflowStore :=
  match dictGet store cache_id with
  | none => (none, store)
  | some entry =>
    if now > entry.expires_at then (none, removeKey store cache_id)
    else (some entry.data, store)

/-- `OverflowDataCache.cleanup_expired` (cache.py lines 74-85): collect the keys
with `now > expires_at`, delete each of them, and return `None` (the Python
function has no return statement; the removal count is only logged). -/
def cleanup_expired (store : OverflowStore) (now : Nat) : OverflowStore × Option Nat :=
  let expired := (store.filter (fun kv => now > kv.2.expires_at)).map Prod.fst
  (expired.foldl removeKey store, none)

/-! ## JSON serialization (model of `json.dumps(data, separators=(',', ':'))`)

`encode_cursor` serializes with the default `ensure_ascii=True`;
`estimate_json_size` serializes with `ensure_ascii=False`.  Both use compact
separators.  The model covers the value domain actually exchanged by the
subsystem (null, bool, int, str, list, dict); floats are outside the model.
Serialization returns `none` exactly when the value contains a
non-JSON-serializable object (`pforeign`), mirroring `json.dumps` raising
`TypeError`. -/

/-- Lowercase hex digit, as produced by CPython's `'\\u{0:04x}'.format`. -/
def hexChar (n : Nat) : Char :=
  if n < 10 then Char.ofNat (48 + n) else Char.ofNat (87 + n)

/-- Four lowercase hex digits of `n` (for `n < 0x10000`). -/
def toHex4 (n : Nat) : List Char :=
  [hexChar (n / 4096 % 16), hexChar (n / 256 % 16), hexChar (n / 16 % 16), hexChar (n % 16)]

/-- Decimal digits of a natural number, as in Python `str(int)`. -/
def natDigits (n : Nat) : List Char :=
  if h : n < 10 then [Char.ofNat (48 + n)]
  else natDigits (n / 10) ++ [Char.ofNat (48 + n % 10)]
termination_by n
decreasing_by exact Nat.div_lt_self (by omega) (by omega)

/-- Python `str()` of an integer. -/
def intRepr (i : Int) : List Char :=
  if i < 0 then '-' :: natDigits i.natAbs else natDigits i.natAbs

/-- The two-character escapes shared by CPython's json encoder
(`ESCAPE_DCT`): quote, backslash, \b \t \n \f \r. -/
def escSpecial (c : Char) : Option (List Char) :=
  if c = '"' then some ['\\', '"']
  else if c = '\\' then some ['\\', '\\']
  else if c.toNat = 8 then some ['\\', 'b']
  else if c.toNat = 9 then some ['\\', 't']
  else if c.toNat = 10 then some ['\\', 'n']
  else if c.toNat = 12 then some ['\\', 'f']
  else if c.toNat = 13 then some ['\\', 'r']
  else none

/-- One character of a JSON string under `ensure_ascii=True`: everything
outside printable ASCII `0x20..0x7E` becomes `\uXXXX` (a surrogate pair for
code points above `0xFFFF`). -/
def escCharAscii (c : Char) : List Char :=
  match escSpecial c with
  | some e => e
  | none =>
    if c.toNat < 0x20 ∨ 0x7E < c.toNat then
      if c.toNat < 0x10000 then '\\' :: 'u' :: toHex4 c.toNat
      else
        let v := c.toNat - 0x10000
        ('\\' :: 'u' :: toHex4 (0xD800 + v / 0x400)) ++
          ('\\' :: 'u' :: toHex4 (0xDC00 + v % 0x400))
    else [c]

/-- One character of a JSON string under `ensure_ascii=False`: only the
special escapes and other control characters below `0x20` are escaped. -/
def escCharRaw (c : Char) : List Char :=
  match escSpecial c with
  | some e => e
  | none => if c.toNat < 0x20 then '\\' :: 'u' :: toHex4 c.toNat else [c]

def escChar (ascii : Bool) (c : Char) : List Char :=
  if ascii then escCharAscii c else escCharRaw c

/-- JSON serialization of a Python string (quotes plus escaped body). -/
def serStr (ascii : Bool) (s : String) : List Char :=
  '"' :: s.data.flatMap (escChar ascii) ++ ['"']

mutual

/-- `json.dumps(v, separators=(',', ':'), ensure_ascii=ascii)`, as a character
list; `none` when the value is not JSON-serializable. -/
def serVal (ascii : Bool) : PyVal → Option (List Char)
  | pnull => some ['n', 'u', 'l', 'l']
  | pbool true => some ['t', 'r', 'u', 'e']
  | pbool false => some ['f', 'a', 'l', 's', 'e']
  | pint i => some (intRepr i)
  | pstr s => some (serStr ascii s)
  | plist xs => (serItems ascii xs).map (fun body => '[' :: body ++ [']'])
  | pdict kvs => (serMembers ascii kvs).map (fun body => '{' :: body ++ ['}'])
  | pforeign => none
termination_by v => sizeOf v

/-- Comma-joined serialization of array items. -/
def serItems (ascii : Bool) : List PyVal → Option (List Char)
  | [] => some []
  | [v] => serVal ascii v
  | v :: rest => do
      let sv ← serVal ascii v
      let sr ← serItems ascii rest
      pure (sv ++ ',' :: sr)
termination_by xs => sizeOf xs

/-- Comma-joined serialization of object members (`"key":value`). -/
def serMembers (ascii : Bool) : List (String × PyVal) → Option (List Char)
  | [] => some []
  | [(k, v)] => (serVal ascii v).map (fun sv => serStr ascii k ++ ':' :: sv)
  | (k, v) :: rest => do
      let sv ← serVal ascii v
      let sr ← serMembers ascii rest
      pure ((serStr ascii k ++ ':' :: sv) ++ ',' :: sr)
termination_by kvs => sizeOf kvs

end

/-- UTF-8 byte length of a character list (Python `len(s.encode('utf-8'))`). -/
def bytesLen (cs : List Char) : Nat := (cs.map Char.utf8Size).sum

/-- `estimate_json_size` (utils.py lines 530-545): byte length of the compact
`ensure_ascii=False` serialization, or 0 if serialization fails. -/
def estimate_json_size (v : PyVal) : Nat :=
  match serVal false v with
  | some cs => bytesLen cs
  | none => 0

/-! ## UTF-8 (model of `str.encode('utf-8')` and strict `bytes.decode('utf-8')`) -/

/-- UTF-8 bytes of one character. -/
def utf8EncodeChar (c : Char) : List Nat :=
  let v := c.toNat
  if v < 0x80 then [v]
  else if v < 0x800 then [0xC0 + v / 0x40, 0x80 + v % 0x40]
  else if v < 0x10000 then
    [0xE0 + v / 0x1000, 0x80 + v / 0x40 % 0x40, 0x80 + v % 0x40]
  else
    [0xF0 + v / 0x40000, 0x80 + v / 0x1000 % 0x40, 0x80 + v / 0x40 % 0x40,
     0x80 + v % 0x40]

/-- Python `s.encode('utf-8')`. -/
def utf8Encode (cs : List Char) : List Nat := cs.flatMap utf8EncodeChar

/-- Is `b` a UTF-8 continuation byte? -/
def utf8Cont (b : Nat) : Bool := decide (0x80 ≤ b ∧ b < 0xC0)

mutual

/-- Strict UTF-8 decoding, as in Python `bytes.decode('utf-8')`: rejects
truncated sequences, stray continuation bytes, overlong forms, surrogates and
values above U+10FFFF. -/
def utf8Decode : List Nat → Option (List Char)
  | [] => some []
  | b :: rest =>
    if b < 0x80 then
      (utf8Decode rest).map (fun cs => Char.ofNat b :: cs)
    else if 0xC2 ≤ b ∧ b ≤ 0xDF then utf8Dec2 b rest
    else if 0xE0 ≤ b ∧ b ≤ 0xEF then utf8Dec3 b rest
    else if 0xF0 ≤ b ∧ b ≤ 0xF4 then utf8Dec4 b rest
    else none
termination_by structural bs => bs

/-- Continuation of a two-byte UTF-8 sequence. -/
def utf8Dec2 (b : Nat) : List Nat → Option (List Char)
  | b2 :: rest2 =>
    if utf8Cont b2 then
      (utf8Decode rest2).map
        (fun cs => Char.ofNat ((b - 0xC0) * 0x40 + (b2 - 0x80)) :: cs)
    else none
  | [] => none
termination_by structural bs => bs

/-- Continuation of a three-byte UTF-8 sequence. -/
def utf8Dec3 (b : Nat) : List Nat → Option (List Char)
  | b2 :: b3 :: rest3 =>
    if utf8Cont b2 ∧ utf8Cont b3 then
      if 0x800 ≤ (b - 0xE0) * 0x1000 + (b2 - 0x80) * 0x40 + (b3 - 0x80) ∧
          ¬ (0xD800 ≤ (b - 0xE0) * 0x1000 + (b2 - 0x80) * 0x40 + (b3 - 0x80) ∧
             (b - 0xE0) * 0x1000 + (b2 - 0x80) * 0x40 + (b3 - 0x80) ≤ 0xDFFF) then
        (utf8Decode rest3).map
          (fun cs => Char.ofNat ((b - 0xE0) * 0x1000 + (b2 - 0x80) * 0x40 + (b3 - 0x80)) :: cs)
      else none
    else none
  | _ => none
termination_by structural bs => bs

/-- Continuation of a four-byte UTF-8 sequence. -/
def utf8Dec4 (b : Nat) : List Nat → Option (List Char)
  | b2 :: b3 :: b4 :: rest4 =>
    if utf8Cont b2 ∧ utf8Cont b3 ∧ utf8Cont b4 then
      if 0x10000 ≤ (b - 0xF0) * 0x40000 + (b2 - 0x80) * 0x1000 +
            (b3 - 0x80) * 0x40 + (b4 - 0x80) ∧
          (b - 0xF0) * 0x40000 + (b2 - 0x80) * 0x1000 +
            (b3 - 0x80) * 0x40 + (b4 - 0x80) ≤ 0x10FFFF then
        (utf8Decode rest4).map
          (fun cs => Char.ofNat ((b - 0xF0) * 0x40000 + (b2 - 0x80) * 0x1000 +
            (b3 - 0x80) * 0x40 + (b4 - 0x80)) :: cs)
      else none
    else none
  | _ => none
termination_by structural bs => bs

end

/-! ## URL-safe base64 (model of `base64.urlsafe_b64encode` / `_b64decode`) -/

/-- The URL-safe base64 alphabet. -/
def b64Chars : List Char :=
  "ABCDEFGHIJKLMNOPQRSTUVWXYZabcdefghijklmnopqrstuvwxyz0123456789-_".data

def sextetChar (n : Nat) : Char := b64Chars.getD n '?'

def charSextet (c : Char) : Option Nat := b64Chars.findIdx? (· = c)

/-- `base64.urlsafe_b64encode`: three bytes become four alphabet characters,
with `=` padding for a trailing group of one or two bytes. -/
def b64encode : List Nat → List Char
  | [] => []
  | [b1] => [sextetChar (b1 / 4), sextetChar (b1 % 4 * 16), '=', '=']
  | [b1, b2] =>
    [sextetChar (b1 / 4), sextetChar (b1 % 4 * 16 + b2 / 16),
     sextetChar (b2 % 16 * 4), '=']
  | b1 :: b2 :: b3 :: rest =>
    sextetChar (b1 / 4) :: sextetChar (b1 % 4 * 16 + b2 / 16) ::
      sextetChar (b2 % 16 * 4 + b3 / 64) :: sextetChar (b3 % 64) :: b64encode rest

/-- `base64.urlsafe_b64decode` on properly padded input: length must be a
multiple of four, groups decode to three bytes, and a padded group (one or two
trailing `=`) is only accepted at the end. -/
def b64decode : List Char → Option (List Nat)
  | [] => some []
  | c1 :: c2 :: c3 :: c4 :: rest => do
    let s1 ← charSextet c1
    let s2 ← charSextet c2
    if c3 = '=' then
      if c4 = '=' ∧ rest = [] then pure [s1 * 4 + s2 / 16] else none
    else do
      let s3 ← charSextet c3
      if c4 = '=' then
        if rest = [] then pure [s1 * 4 + s2 / 16, s2 % 16 * 16 + s3 / 4] else none
      else do
        let s4 ← charSextet c4
        let tl ← b64decode rest
        pure ((s1 * 4 + s2 / 16) :: (s2 % 16 * 16 + s3 / 4) :: (s3 % 4 * 64 + s4) :: tl)
  | _ => none

/-- `.rstrip('=')` (utils.py line 443). -/
def stripEq (cs : List Char) : List Char := (cs.reverse.dropWhile (· = '=')).reverse

/-- Re-padding performed by `decode_cursor` (utils.py lines 466-469):
`padding = 4 - len(cursor) % 4; if padding != 4: cursor += '=' * padding`. -/
def padEq (cs : List Char) : List Char :=
  let padding := 4 - cs.length % 4
  if padding ≠ 4 then cs ++ List.replicate padding '=' else cs

/-! ## JSON parsing (model of `json.loads` on compact input)

The model covers the full grammar produced by the serializer above plus the
whitespace skipping `json.loads` performs; JSON floats (fraction/exponent
forms) and lone surrogate escapes are rejected rather than parsed, as they
are outside this value model. -/

def isWs (c : Char) : Bool := c = ' ' ∨ c = '\t' ∨ c = '\n' ∨ c = '\r'

def skipWs (cs : List Char) : List Char := cs.dropWhile isWs

def hexVal (c : Char) : Option Nat :=
  if '0' ≤ c ∧ c ≤ '9' then some (c.toNat - 48)
  else if 'a' ≤ c ∧ c ≤ 'f' then some (c.toNat - 87)
  else if 'A' ≤ c ∧ c ≤ 'F' then some (c.toNat - 55)
  else none

def hex4Val (h1 h2 h3 h4 : Char) : Option Nat := do
  let v1 ← hexVal h1
  let v2 ← hexVal h2
  let v3 ← hexVal h3
  let v4 ← hexVal h4
  pure (v1 * 4096 + v2 * 256 + v3 * 16 + v4)

mutual

/-- Body of a JSON string after the opening quote: returns the decoded
characters and the input after the closing quote. -/
def parseStrBody : List Char → Option (List Char × List Char)
  | [] => none
  | c :: rest =>
    if c = '"' then some ([], rest)
    else if c = '\\' then parseEsc rest
    else if c.toNat < 0x20 then none
    else (fun p => (c :: p.1, p.2)) <$> parseStrBody rest
termination_by structural cs => cs

/-- One escape sequence after a backslash. -/
def parseEsc : List Char → Option (List Char × List Char)
  | [] => none
  | e :: rest =>
    if e = '"' then (fun p => ('"' :: p.1, p.2)) <$> parseStrBody rest
    else if e = '\\' then (fun p => ('\\' :: p.1, p.2)) <$> parseStrBody rest
    else if e = '/' then (fun p => ('/' :: p.1, p.2)) <$> parseStrBody rest
    else if e = 'b' then (fun p => (Char.ofNat 8 :: p.1, p.2)) <$> parseStrBody rest
    else if e = 'f' then (fun p => (Char.ofNat 12 :: p.1, p.2)) <$> parseStrBody rest
    else if e = 'n' then (fun p => (Char.ofNat 10 :: p.1, p.2)) <$> parseStrBody rest
    else if e = 'r' then (fun p => (Char.ofNat 13 :: p.1, p.2)) <$> parseStrBody rest
    else if e = 't' then (fun p => (Char.ofNat 9 :: p.1, p.2)) <$> parseStrBody rest
    else if e = 'u' then parseU rest
    else none
termination_by structural cs => cs

/-- A `\\uXXXX` escape, combining surrogate pairs into one code point
(lone surrogate escapes — representable in a Python str but not in this
model's strings — are rejected). -/
def parseU : List Char → Option (List Char × List Char)
  | h1 :: h2 :: h3 :: h4 :: rest => do
    let v ← hex4Val h1 h2 h3 h4
    if 0xD800 ≤ v ∧ v ≤ 0xDBFF then parseLoSurr v rest
    else if 0xDC00 ≤ v ∧ v ≤ 0xDFFF then none
    else (fun p => (Char.ofNat v :: p.1, p.2)) <$> parseStrBody rest
  | _ => none
termination_by structural cs => cs

/-- The low half of a surrogate pair: expects `\\uXXXX` with `XXXX` in
`DC00..DFFF` and combines it with the pending high surrogate `v`. -/
def parseLoSurr (v : Nat) : List Char → Option (List Char × List Char)
  | b :: u :: g1 :: g2 :: g3 :: g4 :: rest2 =>
    if b = '\\' ∧ u = 'u' then do
      let w ← hex4Val g1 g2 g3 g4
      if 0xDC00 ≤ w ∧ w ≤ 0xDFFF then
        (fun p => (Char.ofNat (0x10000 + (v - 0xD800) * 0x400 + (w - 0xDC00)) ::
          p.1, p.2)) <$> parseStrBody rest2
      else none
    else none
  | _ => none
termination_by structural cs => cs

end

/-- Decimal value of a digit list. -/
def digitsVal (ds : List Char) : Nat := ds.foldl (fun acc c => acc * 10 + (c.toNat - 48)) 0

/-- A JSON integer literal (`-?(0|[1-9][0-9]*)`); fraction or exponent forms
(floats) are outside the model. -/
def parseIntTok (cs : List Char) : Option (PyVal × List Char) :=
  match cs with
  | [] => none
  | c :: t =>
    let cs1 := if c = '-' then t else c :: t
    let ds := cs1.takeWhile Char.isDigit
    let rest := cs1.dropWhile Char.isDigit
    if ds.isEmpty then none
    else if 1 < ds.length ∧ ds.headD '0' = '0' then none
    else if rest.head?.any (fun r => r = '.' ∨ r = 'e' ∨ r = 'E') then none
    else
      let n : Int := Int.ofNat (digitsVal ds)
      some (pint (if c = '-' then -n else n), rest)

mutual

/-- One JSON value (fuel-indexed recursive descent, as `json.loads` would
parse it; the fuel only limits nesting and member count and is instantiated
generously by `loads`). -/
def parseValue : Nat → List Char → Option (PyVal × List Char)
  | 0, _ => none
  | fuel + 1, cs =>
    match skipWs cs with
    | [] => none
    | c :: rest =>
      if c = '"' then (fun p => (pstr (String.mk p.1), p.2)) <$> parseStrBody rest
      else if c = '[' then
        (match skipWs rest with
         | [] => none
         | d :: rest2 =>
           if d = ']' then some (plist [], rest2)
           else (fun p => (plist p.1, p.2)) <$> parseItemsLoop fuel (d :: rest2))
      else if c = '{' then
        (match skipWs rest with
         | [] => none
         | d :: rest2 =>
           if d = '}' then some (pdict [], rest2)
           else (fun p => (pdict p.1, p.2)) <$> parseMembersLoop fuel [] (d :: rest2))
      else if c = 'n' then
        (match rest with
         | c1 :: c2 :: c3 :: r =>
           if c1 = 'u' ∧ c2 = 'l' ∧ c3 = 'l' then some (pnull, r) else none
         | _ => none)
      else if c = 't' then
        (match rest with
         | c1 :: c2 :: c3 :: r =>
           if c1 = 'r' ∧ c2 = 'u' ∧ c3 = 'e' then some (pbool true, r) else none
         | _ => none)
      else if c = 'f' then
        (match rest with
         | c1 :: c2 :: c3 :: c4 :: r =>
           if c1 = 'a' ∧ c2 = 'l' ∧ c3 = 's' ∧ c4 = 'e' then some (pbool false, r)
           else none
         | _ => none)
      else if c = '-' ∨ c.isDigit then parseIntTok (c :: rest)
      else none
termination_by structural fuel => fuel

/-- Comma-separated array items up to the closing bracket. -/
def parseItemsLoop : Nat → List Char → Option (List PyVal × List Char)
  | 0, _ => none
  | fuel + 1, cs => do
    let (v, rest) ← parseValue fuel cs
    match skipWs rest with
    | [] => none
    | d :: rest2 =>
      if d = ',' then (fun p => (v :: p.1, p.2)) <$> parseItemsLoop fuel rest2
      else if d = ']' then some ([v], rest2)
      else none
termination_by structural fuel => fuel

/-- Comma-separated object members up to the closing brace; like Python's
dict construction, a repeated key overwrites in place (last value wins). -/
def parseMembersLoop : Nat → List (String × PyVal) → List Char →
    Option (List (String × PyVal) × List Char)
  | 0, _, _ => none
  | fuel + 1, acc, cs =>
    match skipWs cs with
    | [] => none
    | d :: rest =>
      if d = '"' then do
        let (kcs, rest1) ← parseStrBody rest
        match skipWs rest1 with
        | [] => none
        | e :: rest2 =>
          if e = ':' then do
            let (v, rest3) ← parseValue fuel rest2
            let acc2 := dictInsert acc (String.mk kcs) v
            match skipWs rest3 with
            | [] => none
            | g :: rest4 =>
              if g = ',' then parseMembersLoop fuel acc2 rest4
              else if g = '}' then some (acc2, rest4)
              else none
          else none
      else none
termination_by structural fuel => fuel

end

/-- `json.loads`: parse one value and require only whitespace afterwards. -/
def loads (cs : List Char) : Option PyVal :=
  match parseValue (cs.length + 1) cs with
  | some (v, rest) => if (skipWs rest).isEmpty then some v else none
  | none => none

/-! ## Cursor codec (`encode_cursor` / `decode_cursor`, utils.py 427-475) -/

/-- `encode_cursor` (utils.py lines 427-446): compact `ensure_ascii` JSON,
UTF-8 encoded, URL-safe base64, with `=` padding stripped; any serialization
failure is caught and yields the empty string. -/
def encode_cursor (v : PyVal) : List Char :=
  match serVal true v with
  | some cs => stripEq (b64encode (utf8Encode cs))
  | none => []

/-- `decode_cursor` (utils.py lines 448-475): an empty cursor is `None`;
otherwise re-pad, base64-decode, UTF-8-decode and `json.loads`, with any
failure caught and turned into `None`.  Note the function returns whatever
`json.loads` produced — there is no check that the payload is a dict. -/
def decode_cursor (cursor : List Char) : Option PyVal :=
  if cursor.isEmpty then none
  else match b64decode (padEq cursor) with
    | none => none
    | some bytes =>
      match utf8Decode bytes with
      | none => none
      | some cs => loads cs

/-! ## Pagination response builder (`create_pagination_response`, utils.py 477-524) -/

/-- Python truthiness of the `cursor_data` argument (`None` and the empty
dict are falsy). -/
def pyTruthyDict : Option (List (String × PyVal)) → Bool
  | none => false
  | some kvs => !kvs.isEmpty

/-- `create_pagination_response` (utils.py lines 477-524): derive `hasMore`
as `len(items) == page_size` unless the caller passed an explicit boolean,
and add `nextCursor` only when `has_more and cursor_data` is truthy. -/
def create_pagination_response (items : List PyVal)
    (cursor_data : Option (List (String × PyVal))) (page_size : Nat)
    (has_more : Option Bool) : PyVal :=
  let hm := match has_more with
    | none => items.length == page_size
    | some b => b
  let base : List (String × PyVal) :=
    [("returned", pint items.length), ("hasMore", pbool hm)]
  let pag :=
    if hm && pyTruthyDict cursor_data then
      dictInsert base "nextCursor"
        (pstr (String.mk (encode_cursor (pdict (cursor_data.getD [])))))
    else base
  pdict [("items", plist items), ("pagination", pdict pag)]

/-- Accessor for the `pagination` sub-dict of a response (for stating the
pagination properties). -/
def paginationFields (r : PyVal) : List (String × PyVal) :=
  match r with
  | pdict kvs =>
    match dictGet kvs "pagination" with
    | some (pdict p) => p
    | _ => []
  | _ => []

/-! ## Field classifier and response splitter (utils.py 547-622) -/

def isPrefixB : List Char → List Char → Bool
  | [], _ => true
  | _ :: _, [] => false
  | p :: ps, h :: hs => p == h && isPrefixB ps hs

/-- Python `pat in hay` substring containment. -/
def containsSub (pat : List Char) : List Char → Bool
  | [] => pat.isEmpty
  | c :: t => isPrefixB pat (c :: t) || containsSub pat t

/-- The heavy-field name patterns (utils.py lines 560-564). -/
def large_field_patterns : List (List Char) :=
  ["raw_".data, "full_".data, "detailed_".data, "complete_".data,
   "activity_details".data, "metric_descriptors".data,
   "activity_detail_metrics".data, "gps_".data, "chart_".data]

def isNone : PyVal → Bool
  | pnull => true
  | _ => false

/-- `is_large_field` (utils.py lines 547-571): the name must contain one of
the heavy patterns (case-insensitively) and the value must be non-None with
estimated size strictly above the threshold. -/
def is_large_field (key : String) (value : PyVal) (threshold_bytes : Nat) : Bool :=
  if large_field_patterns.any (fun p => containsSub p (key.data.map Char.toLower)) then
    if isNone value then false
    else decide (estimate_json_size value > threshold_bytes)
  else false

/-- The note placed next to a `{key}_resource` reference (utils.py 608). -/
def resourceNote (uri : String) : String :=
  "Data moved to resource due to size. Use " ++ uri ++ " to access."

/-- The `{key}_omitted` note (utils.py 610). -/
def omittedNote (size : Nat) : String :=
  "Field omitted due to size (" ++ String.mk (natDigits size) ++ " bytes)"

/-- The field loop of `split_large_response` (utils.py lines 599-612).  The
Python callback is a stateful closure (it writes to the overflow store); it is
modelled as an explicit state-passing function `String → PyVal → σ → String × σ`.
Accumulates the `result` and `overflow_fields` dicts in order. -/
def splitFields (cb : Option (String → PyVal → σ → String × σ)) :
    List (String × PyVal) → List (String × PyVal) → List (String × PyVal) → σ →
    List (String × PyVal) × List (String × PyVal) × σ
  | [], result, overflow, st => (result, overflow, st)
  | (key, value) :: rest, result, overflow, st =>
    if is_large_field key value 50000 then
      let overflow2 := dictInsert overflow key value
      match cb with
      | some f =>
        let (uri, st2) := f key value st
        let result2 := dictInsert (dictInsert result (key ++ "_resource") (pstr uri))
          (key ++ "_note") (pstr (resourceNote uri))
        splitFields cb rest result2 overflow2 st2
      | none =>
        let result2 := dictInsert result (key ++ "_omitted")
          (pstr (omittedNote (estimate_json_size value)))
        splitFields cb rest result2 overflow2 st
    else
      splitFields cb rest (dictInsert result key value) overflow st

/-- `split_large_response` (utils.py lines 573-622): no-op while the estimated
size is within `max_size_bytes`; otherwise divert each large field (threshold
50 KB) and, if anything moved, attach the `_overflow_info` metadata (whose
`reduced_size_bytes` is computed before the metadata itself is inserted). -/
def split_large_response (data : List (String × PyVal)) (max_size_bytes : Nat)
    (cb : Option (String → PyVal → σ → String × σ)) (st : σ) :
    List (String × PyVal) × σ :=
  let current_size := estimate_json_size (pdict data)
  if current_size ≤ max_size_bytes then (data, st)
  else
    let (result, overflow, st2) := splitFields cb data [] [] st
    if overflow.isEmpty then (result, st2)
    else
      (dictInsert result "_overflow_info" (pdict
        [("fields_moved", plist (overflow.map (fun kv => pstr kv.1))),
         ("original_size_bytes", pint (estimate_json_size (pdict data))),
         ("reduced_size_bytes", pint (estimate_json_size (pdict result)))]), st2)

/-- The overflow callback wired up by the server (`_create_overflow_resource`
in main.py lines 49-65): store the payload under the current activity context
with the default TTL of 3600 seconds and hand back the `overflow://` URI.
The state carries the store and a counter indexing the uuid supply. -/
def overflowCallback (activity_id : String) (uuidGen : Nat → String) (now : Nat) :
    String → PyVal → OverflowStore × Nat → String × (OverflowStore × Nat) :=
  fun field_name data st =>
    let (uri, store2) := cacheStore st.1 activity_id field_name data 3600 now (uuidGen st.2)
    (uri, (store2, st.2 + 1))

/-- Serialized byte weight of one dict member in the `ensure_ascii=False`
encoding: `"key":value` plus its separator (used to state size facts;
`objBytes = msum + 1` for a non-empty dict). -/
def memberBytes (kv : String × PyVal) : Nat :=
  bytesLen (serStr false kv.1) + 1 + estimate_json_size kv.2 + 1

/-- Total member weight of a dict, in bytes. -/
def msum (ms : List (String × PyVal)) : Nat := (ms.map memberBytes).sum

/-- Serialized byte weight of the items of a list: each element plus its
separator (`arrBytes = isum + 1` for a non-empty array). -/
def isum (xs : List PyVal) : Nat := (xs.map (fun x => estimate_json_size x + 1)).sum

/-- Closed-form description of the field loop of `split_large_response` when
the callback is the server's overflow callback: returns the transformed
members, the overflow entries created (in order), and the final uuid counter.
Defined only to state the characterization theorem for `splitFields`. -/
def splitOutCb (aid : String) (gen : Nat → String) (now : Nat) :
    List (String × PyVal) → Nat →
    List (String × PyVal) × OverflowStore × Nat
  | [], n => ([], [], n)
  | (k, v) :: rest, n =>
    if is_large_field k v 50000 then
      let cid := aid ++ "_" ++ k ++ "_" ++ gen n
      let uri := "overflow://" ++ cid
      let (out, ents, n') := splitOutCb aid gen now rest (n + 1)
      ((k ++ "_resource", pstr uri) :: (k ++ "_note", pstr (resourceNote uri)) :: out,
       (cid, ⟨v, now + 3600, aid, k⟩) :: ents, n')
    else
      let (out, ents, n') := splitOutCb aid gen now rest n
      ((k, v) :: out, ents, n')

/-- Closed-form description of the field loop with no callback supplied:
each large field collapses to a single `{key}_omitted` note. -/
def splitOutNone (data : List (String × PyVal)) : List (String × PyVal) :=
  data.flatMap (fun kv =>
    if is_large_field kv.1 kv.2 50000 then
      [(kv.1 ++ "_omitted", pstr (omittedNote (estimate_json_size kv.2)))]
    else [kv])

/-- The keys of the transformed member list produced by the field loop when the
overflow callback is supplied: each large field `k` contributes `k_resource`
and `k_note`, every other field keeps its key. -/
def outKeysCb (data : List (String × PyVal)) : List String :=
  data.flatMap (fun kv =>
    if is_large_field kv.1 kv.2 50000 then [kv.1 ++ "_resource", kv.1 ++ "_note"]
    else [kv.1])

/-- The keys of the transformed member list with no callback supplied: each
large field `k` collapses to `k_omitted`. -/
def outKeysNone (data : List (String × PyVal)) : List String :=
  data.flatMap (fun kv =>
    if is_large_field kv.1 kv.2 50000 then [kv.1 ++ "_omitted"] else [kv.1])

/-- Scalar values in the sense of the cursor-state data model
(strings, integers, booleans). -/
def isScalar : PyVal → Bool
  | pstr _ => true
  | pint _ => true
  | pbool _ => true
  | _ => false

/-! ## Theorems -/

theorem removeKey_cons (kv : String × α) (rest : List (String × α)) (k : String) :
    removeKey (kv :: rest) k =
      if kv.1 = k then removeKey rest k else kv :: removeKey rest k := by
  by_cases h : kv.1 = k <;> simp [removeKey, List.filter_cons, h]

theorem dictGet_removeKey_self (s : List (String × α)) (k : String) :
    dictGet (removeKey s k) k = none := by
  induction s with
  | nil => rfl
  | cons kv rest ih =>
    rw [removeKey_cons]
    by_cases h : kv.1 = k
    · simpa [h] using ih
    · simpa [dictGet, h] using ih

theorem dictGet_removeKey_ne (s : List (String × α)) (k k' : String) (h : k' ≠ k) :
    dictGet (removeKey s k) k' = dictGet s k' := by
  induction s with
  | nil => rfl
  | cons kv rest ih =>
    rw [removeKey_cons]
    by_cases hk : kv.1 = k
    · have hne : ¬ kv.1 = k' := by rw [hk]; exact fun e => h e.symm
      rw [if_pos hk, ih]
      simp only [dictGet]
      rw [if_neg hne]
    · rw [if_neg hk]
      simp only [dictGet]
      rw [ih]

theorem foldl_removeKey (keys : List String) (s : List (String × α)) :
    keys.foldl removeKey s = s.filter (fun kv => decide (kv.1 ∉ keys)) := by
  induction keys generalizing s with
  | nil => simp
  | cons k ks ih =>
    simp only [List.foldl_cons, ih, removeKey, List.filter_filter]
    refine List.filter_congr ?_
    intro kv _
    by_cases h1 : kv.1 = k <;> by_cases h2 : kv.1 ∈ ks <;> simp [h1, h2]

theorem nodupKeys_eq {s : List (String × β)} (h : (s.map Prod.fst).Nodup)
    {a b : String × β} (ha : a ∈ s) (hb : b ∈ s) (hk : a.1 = b.1) : a = b := by
  induction s with
  | nil => cases ha
  | cons x t ih =>
    rw [List.map_cons, List.nodup_cons] at h
    rcases List.mem_cons.mp ha with rfl | ha' <;>
      rcases List.mem_cons.mp hb with rfl | hb'
    · rfl
    · exact absurd (hk ▸ List.mem_map_of_mem Prod.fst hb') h.1
    · exact absurd (hk ▸ List.mem_map_of_mem Prod.fst ha') h.1
    · exact ih h.2 ha' hb'

/-! ### Character and digit lemmas -/

theorem toNat_ofNat_valid (n : Nat) (h : n.isValidChar) : (Char.ofNat n).toNat = n := by
  rw [Char.ofNat, dif_pos h]
  rfl

theorem isValidChar_of_lt (n : Nat) (h : n < 0xD800) : n.isValidChar := Or.inl h

theorem toNat_ofNat_lt (n : Nat) (h : n < 0xD800) : (Char.ofNat n).toNat = n :=
  toNat_ofNat_valid n (isValidChar_of_lt n h)

theorem charValidRange (c : Char) :
    c.toNat < 0xD800 ∨ (0xDFFF < c.toNat ∧ c.toNat < 0x110000) := by
  rcases c.valid with h | ⟨h1, h2⟩
  · exact Or.inl h
  · exact Or.inr ⟨h1, h2⟩

theorem hexVal_hexChar : ∀ n, n < 16 → hexVal (hexChar n) = some n := by decide

theorem hex4Val_hexChars (n : Nat) (h : n < 0x10000) :
    hex4Val (hexChar (n / 4096 % 16)) (hexChar (n / 256 % 16))
      (hexChar (n / 16 % 16)) (hexChar (n % 16)) = some n := by
  rw [hex4Val, hexVal_hexChar _ (by omega), hexVal_hexChar _ (by omega),
    hexVal_hexChar _ (by omega), hexVal_hexChar _ (by omega)]
  show some _ = some n
  congr 1
  omega

theorem natDigits_ne_nil (n : Nat) : natDigits n ≠ [] := by
  rw [natDigits]
  split
  · simp
  · simp

theorem digitChar_isDigit : ∀ d, d < 10 → (Char.ofNat (48 + d)).isDigit = true := by
  decide

theorem natDigits_mem_digit : ∀ n, ∀ c ∈ natDigits n, c.isDigit = true := by
  intro n
  induction n using Nat.strong_induction_on with
  | _ n ih =>
    rw [natDigits]
    split
    · rename_i h
      intro c hc
      rw [List.mem_singleton] at hc
      subst hc
      exact digitChar_isDigit n h
    · rename_i h
      intro c hc
      rcases List.mem_append.mp hc with h1 | h2
      · exact ih (n / 10) (Nat.div_lt_self (by omega) (by omega)) c h1
      · rw [List.mem_singleton] at h2
        subst h2
        exact digitChar_isDigit (n % 10) (by omega)

theorem digitsVal_foldl (n : Nat) : ∀ a,
    (natDigits n).foldl (fun acc c => acc * 10 + (c.toNat - 48)) a =
      a * 10 ^ (natDigits n).length + n := by
  induction n using Nat.strong_induction_on with
  | _ n ih =>
    intro a
    rw [natDigits]
    split
    · rename_i h
      simp only [List.foldl_cons, List.foldl_nil, List.length_singleton, pow_one]
      rw [toNat_ofNat_lt (48 + n) (by omega)]
      omega
    · rename_i h
      rw [List.foldl_append, ih (n / 10) (Nat.div_lt_self (by omega) (by omega)) a]
      simp only [List.foldl_cons, List.foldl_nil, List.length_append,
        List.length_singleton, pow_succ]
      rw [toNat_ofNat_lt (48 + n % 10) (by omega), ← mul_assoc]
      omega

theorem digitsVal_natDigits (n : Nat) : digitsVal (natDigits n) = n := by
  have h := digitsVal_foldl n 0
  simpa [digitsVal] using h

theorem natDigits_head_ne_zero (n : Nat) (hn : 1 ≤ n) :
    ∀ t, natDigits n ≠ '0' :: t := by
  induction n using Nat.strong_induction_on with
  | _ n ih =>
    intro t he
    rw [natDigits] at he
    split at he
    · rename_i h
      rw [List.cons.injEq] at he
      have h1 := congrArg Char.toNat he.1
      rw [toNat_ofNat_lt (48 + n) (by omega)] at h1
      have h0 : ('0' : Char).toNat = 48 := by decide
      omega
    · rename_i h
      rcases hd : natDigits (n / 10) with _ | ⟨c, t'⟩
      · exact natDigits_ne_nil (n / 10) hd
      · rw [hd, List.cons_append, List.cons.injEq] at he
        exact ih (n / 10) (Nat.div_lt_self (by omega) (by omega)) (by omega) t'
          (hd.trans (by rw [he.1]))

theorem natDigits_length_le (k : Nat) : ∀ n, n < 10 ^ k → 1 ≤ k →
    (natDigits n).length ≤ k := by
  induction k with
  | zero => omega
  | succ k ihk =>
    intro n hn _
    rw [natDigits]
    split
    · simp
    · rename_i h
      have hk : 1 ≤ k := by
        by_contra hk0
        have : k = 0 := by omega
        subst this
        simp at hn
        omega
      have : n / 10 < 10 ^ k := by
        rw [pow_succ] at hn
        omega
      have := ihk (n / 10) this hk
      simp [List.length_append]
      omega

theorem stringMkData (s : String) : String.mk s.data = s := rfl

theorem takeWhile_all_append (p : Char → Bool) (l1 l2 : List Char)
    (h : ∀ a ∈ l1, p a = true) :
    (l1 ++ l2).takeWhile p = l1 ++ l2.takeWhile p := by
  induction l1 with
  | nil => simp
  | cons c t ih =>
    have hc := h c (by simp)
    simp [List.takeWhile_cons, hc, ih (fun a ha => h a (by simp [ha]))]

theorem dropWhile_all_append (p : Char → Bool) (l1 l2 : List Char)
    (h : ∀ a ∈ l1, p a = true) :
    (l1 ++ l2).dropWhile p = l2.dropWhile p := by
  induction l1 with
  | nil => simp
  | cons c t ih =>
    simp only [List.cons_append, List.dropWhile_cons, h c (by simp)]
    exact ih (fun a ha => h a (by simp [ha]))

/-- Character classes that stop an integer token (used for the serializer's
continuations `,`, `}`, `]` and end of input). -/
theorem parseIntTok_intRepr (i : Int) (rest : List Char)
    (hstop : ∀ c, rest.head? = some c →
      c.isDigit = false ∧ c ≠ '.' ∧ c ≠ 'e' ∧ c ≠ 'E') :
    parseIntTok (intRepr i ++ rest) = some (pint i, rest) := by
  have hdash : ('-' : Char).isDigit = false := by decide
  have htake : ∀ n, (natDigits n ++ rest).takeWhile Char.isDigit = natDigits n := by
    intro n
    rw [takeWhile_all_append Char.isDigit _ _ (natDigits_mem_digit n)]
    cases hr : rest with
    | nil => simp
    | cons r t =>
      have := (hstop r (by rw [hr]; rfl)).1
      simp [List.takeWhile_cons, this]
  have hdrop : ∀ n, (natDigits n ++ rest).dropWhile Char.isDigit = rest := by
    intro n
    rw [dropWhile_all_append Char.isDigit _ _ (natDigits_mem_digit n)]
    cases hr : rest with
    | nil => simp
    | cons r t =>
      have := (hstop r (by rw [hr]; rfl)).1
      simp [List.dropWhile_cons, this]
  have hnotempty : ∀ n, (natDigits n).isEmpty = false := by
    intro n
    cases hd : natDigits n with
    | nil => exact absurd hd (natDigits_ne_nil n)
    | cons c t => rfl
  have hleadzero : ∀ n, ¬ (1 < (natDigits n).length ∧ (natDigits n).headD '0' = '0') := by
    intro n
    rintro ⟨hlen, hhead⟩
    by_cases hn : n = 0
    · subst hn
      rw [natDigits] at hlen
      simp at hlen
    · cases hd : natDigits n with
      | nil => exact natDigits_ne_nil n hd
      | cons c t =>
        rw [hd] at hhead
        simp at hhead
        exact natDigits_head_ne_zero n (by omega) t (hhead ▸ hd)
  have hfloat : (rest.head?.any (fun r => decide (r = '.' ∨ r = 'e' ∨ r = 'E'))) = false := by
    cases hr : rest with
    | nil => rfl
    | cons r t =>
      have h := hstop r (by rw [hr]; rfl)
      simp [Option.any, h.2.1, h.2.2.1, h.2.2.2]
  rcases lt_or_ge i 0 with hi | hi
  · have hrep : intRepr i = '-' :: natDigits i.natAbs := by
      rw [intRepr, if_pos hi]
    have habs : -(Int.ofNat i.natAbs) = i := by
      simp only [Int.ofNat_eq_natCast]
      omega
    rw [hrep, List.cons_append, parseIntTok]
    simp only [eq_self_iff_true, if_true, htake, hdrop, hnotempty, Bool.false_eq_true,
      if_false, hleadzero, hfloat, digitsVal_natDigits, habs]
  · have hrep : intRepr i = natDigits i.natAbs := by
      rw [intRepr, if_neg (by omega)]
    have habs : Int.ofNat i.natAbs = i := by
      simp only [Int.ofNat_eq_natCast]
      omega
    rcases hd : natDigits i.natAbs with _ | ⟨c, t⟩
    · exact absurd hd (natDigits_ne_nil i.natAbs)
    · have hcdigit : c.isDigit = true := natDigits_mem_digit i.natAbs c (by rw [hd]; simp)
      have hcnotdash : ¬ c = '-' := fun he => by
        rw [he] at hcdigit
        exact absurd hcdigit (by decide)
      rw [hrep, hd, List.cons_append, parseIntTok]
      simp only [hcnotdash, if_false]
      rw [show c :: (t ++ rest) = (c :: t) ++ rest from rfl, ← hd]
      simp only [htake, hdrop, hnotempty, Bool.false_eq_true, if_false,
        hleadzero, hfloat, digitsVal_natDigits, habs]

/-! ### String escape round trip -/

theorem escSpecial_none (c : Char) (h : escSpecial c = none) :
    ¬ c = '"' ∧ ¬ c = '\\' := by
  constructor <;> intro he <;> subst he <;> simp [escSpecial] at h

theorem escSpecial_some (c : Char) (e : List Char) (h : escSpecial c = some e) :
    (c = '"' ∧ e = ['\\', '"']) ∨ (c = '\\' ∧ e = ['\\', '\\']) ∨
    (c = Char.ofNat 8 ∧ e = ['\\', 'b']) ∨ (c = Char.ofNat 9 ∧ e = ['\\', 't']) ∨
    (c = Char.ofNat 10 ∧ e = ['\\', 'n']) ∨ (c = Char.ofNat 12 ∧ e = ['\\', 'f']) ∨
    (c = Char.ofNat 13 ∧ e = ['\\', 'r']) := by
  unfold escSpecial at h
  split_ifs at h with h1 h2 h3 h4 h5 h6 h7
  · exact Or.inl ⟨h1, (Option.some.inj h).symm⟩
  · exact Or.inr (Or.inl ⟨h2, (Option.some.inj h).symm⟩)
  · exact Or.inr (Or.inr (Or.inl ⟨by rw [← h3, Char.ofNat_toNat],
      (Option.some.inj h).symm⟩))
  · exact Or.inr (Or.inr (Or.inr (Or.inl ⟨by rw [← h4, Char.ofNat_toNat],
      (Option.some.inj h).symm⟩)))
  · exact Or.inr (Or.inr (Or.inr (Or.inr (Or.inl ⟨by rw [← h5, Char.ofNat_toNat],
      (Option.some.inj h).symm⟩))))
  · exact Or.inr (Or.inr (Or.inr (Or.inr (Or.inr (Or.inl ⟨by rw [← h6, Char.ofNat_toNat],
      (Option.some.inj h).symm⟩)))))
  · exact Or.inr (Or.inr (Or.inr (Or.inr (Or.inr (Or.inr ⟨by rw [← h7, Char.ofNat_toNat],
      (Option.some.inj h).symm⟩)))))

theorem parseStrBody_quote (rest : List Char) :
    parseStrBody ('"' :: rest) = some ([], rest) := by
  simp [parseStrBody]

theorem parseStrBody_bs (rest : List Char) :
    parseStrBody ('\\' :: rest) = parseEsc rest := by
  simp [parseStrBody]

theorem parseStrBody_reg (c : Char) (rest : List Char) (h1 : ¬ c = '"')
    (h2 : ¬ c = '\\') (h3 : ¬ c.toNat < 0x20) :
    parseStrBody (c :: rest) = (fun p => (c :: p.1, p.2)) <$> parseStrBody rest := by
  rw [parseStrBody]
  rw [if_neg h1, if_neg h2, if_neg h3]

theorem parseEsc_u (rest : List Char) : parseEsc ('u' :: rest) = parseU rest := by
  simp [parseEsc]

theorem parseU_surrogatePair (hi lo : Nat) (hhi1 : 0xD800 ≤ hi) (hhi2 : hi ≤ 0xDBFF)
    (hlo1 : 0xDC00 ≤ lo) (hlo2 : lo ≤ 0xDFFF) (tail : List Char) :
    parseU (toHex4 hi ++ '\\' :: 'u' :: toHex4 lo ++ tail) =
      (fun p => (Char.ofNat (0x10000 + (hi - 0xD800) * 0x400 + (lo - 0xDC00)) ::
        p.1, p.2)) <$> parseStrBody tail := by
  rw [show toHex4 hi ++ '\\' :: 'u' :: toHex4 lo ++ tail =
      hexChar (hi / 4096 % 16) :: hexChar (hi / 256 % 16) :: hexChar (hi / 16 % 16) ::
      hexChar (hi % 16) :: '\\' :: 'u' :: hexChar (lo / 4096 % 16) ::
      hexChar (lo / 256 % 16) :: hexChar (lo / 16 % 16) :: hexChar (lo % 16) :: tail
    from rfl]
  rw [parseU, hex4Val_hexChars hi (by omega)]
  rw [show ∀ (a : Nat) (f : Nat → Option (List Char × List Char)),
      (do let v ← some a; f v) = f a from fun a f => rfl]
  rw [if_pos ⟨hhi1, hhi2⟩, parseLoSurr]
  rw [if_pos (by decide : ('\\' : Char) = '\\' ∧ ('u' : Char) = 'u')]
  rw [hex4Val_hexChars lo (by omega)]
  rw [show ∀ (a : Nat) (f : Nat → Option (List Char × List Char)),
      (do let w ← some a; f w) = f a from fun a f => rfl]
  rw [if_pos ⟨hlo1, hlo2⟩]

theorem parseStrBody_flatMap (s : List Char) (rest : List Char) :
    parseStrBody (s.flatMap escCharAscii ++ '"' :: rest) = some (s, rest) := by
  induction s with
  | nil => simp [parseStrBody_quote]
  | cons c t ih =>
    rw [List.flatMap_cons, List.append_assoc]
    rcases hsp : escSpecial c with _ | e
    · have hne := escSpecial_none c hsp
      rw [escCharAscii, hsp]
      by_cases hrange : c.toNat < 0x20 ∨ 0x7E < c.toNat
      · rw [if_pos hrange]
        by_cases hbmp : c.toNat < 0x10000
        · rw [if_pos hbmp]
          have hsur : c.toNat < 0xD800 ∨ 0xDFFF < c.toNat := by
            rcases charValidRange c with h | ⟨h1, _⟩
            · exact Or.inl h
            · exact Or.inr h1
          rw [show ('\\' :: 'u' :: toHex4 c.toNat) ++
              (t.flatMap escCharAscii ++ '"' :: rest) =
              '\\' :: 'u' :: hexChar (c.toNat / 4096 % 16) :: hexChar (c.toNat / 256 % 16) ::
              hexChar (c.toNat / 16 % 16) :: hexChar (c.toNat % 16) ::
              (t.flatMap escCharAscii ++ '"' :: rest) from rfl]
          rw [parseStrBody_bs, parseEsc_u, parseU]
          rw [hex4Val_hexChars c.toNat hbmp]
          simp only [Option.bind_eq_bind, Option.some_bind]
          rw [if_neg (by omega), if_neg (by omega), ih]
          simp [Char.ofNat_toNat]
        · rw [if_neg hbmp]
          have hc : c.toNat < 0x110000 := by
            rcases charValidRange c with h | ⟨_, h2⟩
            · omega
            · exact h2
          have hvlt : c.toNat - 0x10000 < 0x100000 := by omega
          rw [show ('\\' :: 'u' :: toHex4 (0xD800 + (c.toNat - 0x10000) / 0x400)) ++
                ('\\' :: 'u' :: toHex4 (0xDC00 + (c.toNat - 0x10000) % 0x400)) ++
                (t.flatMap escCharAscii ++ '"' :: rest) =
              '\\' :: 'u' :: (toHex4 (0xD800 + (c.toNat - 0x10000) / 0x400) ++
                '\\' :: 'u' :: toHex4 (0xDC00 + (c.toNat - 0x10000) % 0x400) ++
                (t.flatMap escCharAscii ++ '"' :: rest)) from rfl]
          rw [parseStrBody_bs, parseEsc_u]
          rw [parseU_surrogatePair (0xD800 + (c.toNat - 0x10000) / 0x400)
            (0xDC00 + (c.toNat - 0x10000) % 0x400) (by omega) (by omega) (by omega)
            (by have := Nat.mod_lt (c.toNat - 0x10000) (show 0 < 0x400 from by omega); omega)
            (t.flatMap escCharAscii ++ '"' :: rest)]
          rw [ih]
          have hcp : 0x10000 +
              (0xD800 + (c.toNat - 0x10000) / 0x400 - 0xD800) * 0x400 +
              (0xDC00 + (c.toNat - 0x10000) % 0x400 - 0xDC00) = c.toNat := by omega
          rw [hcp]
          simp [Char.ofNat_toNat]
      · rw [if_neg hrange, List.singleton_append]
        rw [parseStrBody_reg c _ hne.1 hne.2 (by omega), ih]
        rfl
    · rcases escSpecial_some c e hsp with ⟨rfl, rfl⟩ | ⟨rfl, rfl⟩ | ⟨rfl, rfl⟩ |
        ⟨rfl, rfl⟩ | ⟨rfl, rfl⟩ | ⟨rfl, rfl⟩ | ⟨rfl, rfl⟩ <;>
      · rw [escCharAscii, hsp]
        simp only [List.cons_append, List.nil_append]
        rw [parseStrBody_bs]
        simp [parseEsc, ih]

/-! ### ASCII-ness of the `ensure_ascii` serialization, and UTF-8 -/

theorem hexChar_ascii : ∀ n, n < 16 → (hexChar n).toNat < 0x80 := by decide

theorem toHex4_ascii (n : Nat) : ∀ x ∈ toHex4 n, x.toNat < 0x80 := by
  intro x hx
  simp only [toHex4, List.mem_cons, List.mem_singleton, List.not_mem_nil, or_false] at hx
  rcases hx with rfl | rfl | rfl | rfl <;>
    exact hexChar_ascii _ (Nat.mod_lt _ (by omega))

theorem escCharAscii_ascii (c : Char) : ∀ x ∈ escCharAscii c, x.toNat < 0x80 := by
  intro x hx
  rcases hsp : escSpecial c with _ | e
  · simp only [escCharAscii, hsp] at hx
    by_cases hrange : c.toNat < 0x20 ∨ 0x7E < c.toNat
    · rw [if_pos hrange] at hx
      by_cases hbmp : c.toNat < 0x10000
      · rw [if_pos hbmp] at hx
        rcases List.mem_cons.mp hx with rfl | hx
        · decide
        · rcases List.mem_cons.mp hx with rfl | hx
          · decide
          · exact toHex4_ascii _ x hx
      · rw [if_neg hbmp] at hx
        rcases List.mem_append.mp hx with hx | hx <;>
          · rcases List.mem_cons.mp hx with rfl | hx
            · decide
            · rcases List.mem_cons.mp hx with rfl | hx
              · decide
              · exact toHex4_ascii _ x hx
    · rw [if_neg hrange] at hx
      rw [List.mem_singleton] at hx
      subst hx
      omega
  · simp only [escCharAscii, hsp] at hx
    rcases escSpecial_some c e hsp with ⟨_, rfl⟩ | ⟨_, rfl⟩ | ⟨_, rfl⟩ |
      ⟨_, rfl⟩ | ⟨_, rfl⟩ | ⟨_, rfl⟩ | ⟨_, rfl⟩ <;>
      rcases List.mem_cons.mp hx with rfl | hx <;>
      first
        | decide
        | (rw [List.mem_singleton] at hx; subst hx; decide)

theorem serStr_ascii (s : String) : ∀ x ∈ serStr true s, x.toNat < 0x80 := by
  intro x hx
  rw [serStr] at hx
  rcases List.mem_cons.mp hx with rfl | hx
  · decide
  · rcases List.mem_append.mp hx with hx | hx
    · rcases List.mem_flatMap.mp hx with ⟨c, _, hc⟩
      exact escCharAscii_ascii c x (by simpa [escChar] using hc)
    · rw [List.mem_singleton] at hx
      subst hx
      decide

theorem natDigits_ascii (n : Nat) : ∀ x ∈ natDigits n, x.toNat < 0x80 := by
  intro x hx
  have hd := natDigits_mem_digit n x hx
  have : x.toNat ≤ 57 := by
    have h9 : x ≤ '9' := by
      have := hd
      simp [Char.isDigit] at this
      exact this.2
    simpa [Char.le_def] using h9
  omega

theorem intRepr_ascii (i : Int) : ∀ x ∈ intRepr i, x.toNat < 0x80 := by
  intro x hx
  rw [intRepr] at hx
  by_cases hi : i < 0
  · rw [if_pos hi] at hx
    rcases List.mem_cons.mp hx with rfl | hx
    · decide
    · exact natDigits_ascii _ x hx
  · rw [if_neg hi] at hx
    exact natDigits_ascii _ x hx

theorem utf8EncodeChar_ascii (c : Char) (h : c.toNat < 0x80) :
    utf8EncodeChar c = [c.toNat] := by
  simp [utf8EncodeChar, h]

set_option maxHeartbeats 1000000 in
theorem utf8Decode_cons_ascii (b : Nat) (hb : b < 0x80) (bs : List Nat) :
    utf8Decode (b :: bs) = (utf8Decode bs).map (fun cs => Char.ofNat b :: cs) := by
  rw [utf8Decode.eq_def]
  simp [hb]

theorem utf8Decode_ascii (cs : List Char) (h : ∀ c ∈ cs, c.toNat < 0x80) :
    utf8Decode (utf8Encode cs) = some cs := by
  induction cs with
  | nil => rfl
  | cons c t ih =>
    have hc := h c (by simp)
    rw [utf8Encode, List.flatMap_cons, utf8EncodeChar_ascii c hc,
      List.singleton_append, utf8Decode_cons_ascii c.toNat hc,
      show (t.flatMap utf8EncodeChar) = utf8Encode t from rfl,
      ih (fun a ha => h a (by simp [ha]))]
    simp [Char.ofNat_toNat]

theorem utf8Encode_lt256 (cs : List Char) (h : ∀ c ∈ cs, c.toNat < 0x80) :
    ∀ b ∈ utf8Encode cs, b < 256 := by
  intro b hb
  rcases List.mem_flatMap.mp hb with ⟨c, hc, hbc⟩
  rw [utf8EncodeChar_ascii c (h c hc)] at hbc
  rw [List.mem_singleton] at hbc
  subst hbc
  have := h c hc
  omega

/-! ### URL-safe base64 round trip -/

theorem bind_some_red {α β : Type} (a : α) (f : α → Option β) :
    (do let x ← some a; f x) = f a := rfl

theorem charSextet_sextetChar : ∀ n, n < 64 → charSextet (sextetChar n) = some n := by
  decide

theorem sextetChar_ne_eq : ∀ n, n < 64 → ¬ sextetChar n = '=' := by decide

theorem stripEq_cons (c : Char) (l : List Char) :
    stripEq (c :: l) =
      if (stripEq l).isEmpty then (if c = '=' then [] else [c])
      else c :: stripEq l := by
  unfold stripEq
  rw [show (c :: l).reverse = l.reverse ++ [c] from by simp, List.dropWhile_append]
  by_cases hl : (List.dropWhile (fun x => decide (x = '=')) l.reverse).isEmpty
  · rw [if_pos hl]
    have : (List.dropWhile (fun x => decide (x = '=')) l.reverse).reverse.isEmpty = true := by
      simpa using hl
    rw [if_pos this]
    by_cases hc : c = '='
    · simp [List.dropWhile, hc]
    · simp [List.dropWhile, hc]
  · rw [if_neg hl]
    have : ¬ (List.dropWhile (fun x => decide (x = '=')) l.reverse).reverse.isEmpty = true := by
      simpa using hl
    rw [if_neg this]
    simp

theorem stripEq_append_of (a t : List Char) (h : ∀ c ∈ a, ¬ c = '=') :
    stripEq (a ++ t) = a ++ stripEq t := by
  induction a with
  | nil => simp
  | cons c a' ih =>
    rw [List.cons_append, stripEq_cons,
      ih (fun x hx => h x (by simp [hx]))]
    by_cases he : (a' ++ stripEq t).isEmpty
    · rcases List.append_eq_nil.mp (List.isEmpty_iff.mp he) with ⟨rfl, h2⟩
      rw [if_pos (by simp [h2])]
      rw [if_neg (h c (by simp))]
      simp [h2]
    · rw [if_neg he]
      rfl

theorem padEq_append4 (g s : List Char) (hg : g.length = 4) :
    padEq (g ++ s) = g ++ padEq s := by
  unfold padEq
  rw [List.length_append, hg]
  have hm : (4 + s.length) % 4 = s.length % 4 := by omega
  rw [hm]
  by_cases hp : 4 - s.length % 4 ≠ 4
  · rw [if_pos hp, if_pos hp, List.append_assoc]
  · rw [if_neg hp, if_neg hp]

theorem b64_roundtrip_aux : ∀ N, ∀ bs : List Nat, bs.length ≤ N →
    (∀ b ∈ bs, b < 256) →
    b64decode (padEq (stripEq (b64encode bs))) = some bs := by
  intro N
  induction N with
  | zero =>
    intro bs hlen _
    have hnil : bs = [] := List.length_eq_zero.mp (by omega)
    subst hnil
    rfl
  | succ N ihN =>
    intro bs hlen hb
    match bs with
    | [] => rfl
    | [b1] =>
      have h1 : b1 < 256 := hb b1 (by simp)
      have e1 : b1 / 4 < 64 := by omega
      have e2 : b1 % 4 * 16 < 64 := by omega
      rw [show b64encode [b1] = [sextetChar (b1 / 4), sextetChar (b1 % 4 * 16)] ++
          ['=', '='] from rfl]
      rw [stripEq_append_of _ _ (by
        intro c hc
        rcases List.mem_cons.mp hc with rfl | hc
        · exact sextetChar_ne_eq _ e1
        · rw [List.mem_singleton] at hc
          subst hc
          exact sextetChar_ne_eq _ e2)]
      rw [show stripEq ['=', '='] = [] from rfl, List.append_nil]
      rw [show padEq [sextetChar (b1 / 4), sextetChar (b1 % 4 * 16)] =
          [sextetChar (b1 / 4), sextetChar (b1 % 4 * 16), '=', '='] from rfl]
      rw [b64decode, charSextet_sextetChar _ e1, bind_some_red,
        charSextet_sextetChar _ e2, bind_some_red]
      rw [if_pos rfl, if_pos ⟨rfl, rfl⟩]
      congr 1
      congr 1
      omega
    | [b1, b2] =>
      have h1 : b1 < 256 := hb b1 (by simp)
      have h2 : b2 < 256 := hb b2 (by simp)
      have e1 : b1 / 4 < 64 := by omega
      have e2 : b1 % 4 * 16 + b2 / 16 < 64 := by omega
      have e3 : b2 % 16 * 4 < 64 := by omega
      rw [show b64encode [b1, b2] = [sextetChar (b1 / 4),
          sextetChar (b1 % 4 * 16 + b2 / 16), sextetChar (b2 % 16 * 4)] ++ ['='] from rfl]
      rw [stripEq_append_of _ _ (by
        intro c hc
        rcases List.mem_cons.mp hc with rfl | hc
        · exact sextetChar_ne_eq _ e1
        · rcases List.mem_cons.mp hc with rfl | hc
          · exact sextetChar_ne_eq _ e2
          · rw [List.mem_singleton] at hc
            subst hc
            exact sextetChar_ne_eq _ e3)]
      rw [show stripEq ['='] = [] from rfl, List.append_nil]
      rw [show padEq [sextetChar (b1 / 4), sextetChar (b1 % 4 * 16 + b2 / 16),
          sextetChar (b2 % 16 * 4)] =
          [sextetChar (b1 / 4), sextetChar (b1 % 4 * 16 + b2 / 16),
           sextetChar (b2 % 16 * 4), '='] from rfl]
      rw [b64decode, charSextet_sextetChar _ e1, bind_some_red,
        charSextet_sextetChar _ e2, bind_some_red]
      rw [if_neg (sextetChar_ne_eq _ e3), charSextet_sextetChar _ e3, bind_some_red]
      rw [if_pos rfl, if_pos rfl]
      congr 1
      congr 1
      · omega
      · congr 1
        omega
    | b1 :: b2 :: b3 :: rest =>
      have h1 : b1 < 256 := hb b1 (by simp)
      have h2 : b2 < 256 := hb b2 (by simp)
      have h3 : b3 < 256 := hb b3 (by simp)
      have e1 : b1 / 4 < 64 := by omega
      have e2 : b1 % 4 * 16 + b2 / 16 < 64 := by omega
      have e3 : b2 % 16 * 4 + b3 / 64 < 64 := by omega
      have e4 : b3 % 64 < 64 := by omega
      rw [show b64encode (b1 :: b2 :: b3 :: rest) =
          [sextetChar (b1 / 4), sextetChar (b1 % 4 * 16 + b2 / 16),
           sextetChar (b2 % 16 * 4 + b3 / 64), sextetChar (b3 % 64)] ++
          b64encode rest from rfl]
      rw [stripEq_append_of _ _ (by
        intro c hc
        rcases List.mem_cons.mp hc with rfl | hc
        · exact sextetChar_ne_eq _ e1
        · rcases List.mem_cons.mp hc with rfl | hc
          · exact sextetChar_ne_eq _ e2
          · rcases List.mem_cons.mp hc with rfl | hc
            · exact sextetChar_ne_eq _ e3
            · rw [List.mem_singleton] at hc
              subst hc
              exact sextetChar_ne_eq _ e4)]
      rw [padEq_append4 _ _ (by rfl)]
      rw [show ([sextetChar (b1 / 4), sextetChar (b1 % 4 * 16 + b2 / 16),
           sextetChar (b2 % 16 * 4 + b3 / 64), sextetChar (b3 % 64)] : List Char) ++
          padEq (stripEq (b64encode rest)) =
          sextetChar (b1 / 4) :: sextetChar (b1 % 4 * 16 + b2 / 16) ::
          sextetChar (b2 % 16 * 4 + b3 / 64) :: sextetChar (b3 % 64) ::
          padEq (stripEq (b64encode rest)) from rfl]
      rw [b64decode, charSextet_sextetChar _ e1, bind_some_red,
        charSextet_sextetChar _ e2, bind_some_red]
      rw [if_neg (sextetChar_ne_eq _ e3), charSextet_sextetChar _ e3, bind_some_red]
      rw [if_neg (sextetChar_ne_eq _ e4), charSextet_sextetChar _ e4, bind_some_red]
      rw [ihN rest (by simp at hlen; omega) (fun b hbm => hb b (by simp [hbm]))]
      rw [bind_some_red]
      congr 1
      congr 1
      · omega
      · congr 1
        · omega
        · congr 1
          omega

theorem b64_roundtrip (bs : List Nat) (hb : ∀ b ∈ bs, b < 256) :
    b64decode (padEq (stripEq (b64encode bs))) = some bs :=
  b64_roundtrip_aux bs.length bs (le_refl _) hb

/-! ### Value-level parse of the serializer's output -/

theorem skipWs_cons (c : Char) (l : List Char) (h : isWs c = false) :
    skipWs (c :: l) = c :: l := by
  simp [skipWs, List.dropWhile_cons, h]

theorem charDigit_toNat (c : Char) (h : c.isDigit = true) :
    48 ≤ c.toNat ∧ c.toNat ≤ 57 := by
  simp [Char.isDigit] at h
  constructor
  · simpa [Char.le_def] using h.1
  · simpa [Char.le_def] using h.2

theorem numStart_facts (c : Char) (h : c = '-' ∨ c.isDigit = true) :
    ¬ c = '"' ∧ ¬ c = '[' ∧ ¬ c = '{' ∧ ¬ c = 'n' ∧ ¬ c = 't' ∧ ¬ c = 'f' ∧
      isWs c = false := by
  rcases h with rfl | h
  · refine ⟨by decide, by decide, by decide, by decide, by decide, by decide, by decide⟩
  · have hb := charDigit_toNat c h
    refine ⟨?_, ?_, ?_, ?_, ?_, ?_, ?_⟩ <;> first
      | (intro he; subst he; revert hb; decide)
      | (simp [isWs]
         refine ⟨?_, ?_, ?_, ?_⟩ <;> intro he <;> subst he <;> revert hb <;> decide)

theorem parseValue_pstr (f : Nat) (s : String) (rest : List Char) :
    parseValue (f + 1) (serStr true s ++ rest) = some (pstr s, rest) := by
  have hesc : escChar true = escCharAscii := funext fun c => rfl
  rw [show serStr true s ++ rest =
      '"' :: (s.data.flatMap escCharAscii ++ '"' :: rest) from by
    simp [serStr, hesc]]
  rw [parseValue, skipWs_cons _ _ (by decide)]
  simp [parseStrBody_flatMap s.data rest, stringMkData]

theorem parseValue_pbool (f : Nat) (b : Bool) (rest : List Char) :
    parseValue (f + 1) ((if b then ['t', 'r', 'u', 'e'] else ['f', 'a', 'l', 's', 'e'])
      ++ rest) = some (pbool b, rest) := by
  cases b
  · rw [if_neg (by decide), List.cons_append, parseValue,
      skipWs_cons _ _ (by decide)]
    simp
  · rw [if_pos (by decide), List.cons_append, parseValue,
      skipWs_cons _ _ (by decide)]
    simp

theorem parseValue_pint (f : Nat) (i : Int) (rest : List Char)
    (hstop : rest.head? = some ',' ∨ rest.head? = some '}') :
    parseValue (f + 1) (intRepr i ++ rest) = some (pint i, rest) := by
  have hstop' : ∀ c, rest.head? = some c →
      c.isDigit = false ∧ c ≠ '.' ∧ c ≠ 'e' ∧ c ≠ 'E' := by
    intro c hc
    rcases hstop with h | h <;> rw [h] at hc <;>
      · rw [Option.some.injEq] at hc
        subst hc
        refine ⟨by decide, by decide, by decide, by decide⟩
  have hint := parseIntTok_intRepr i rest hstop'
  have hstart : ∃ d t, intRepr i ++ rest = d :: t ∧ (d = '-' ∨ d.isDigit = true) ∧
      d :: t = intRepr i ++ rest := by
    rw [intRepr]
    by_cases hi : i < 0
    · rw [if_pos hi]
      exact ⟨'-', _, rfl, Or.inl rfl, rfl⟩
    · rw [if_neg hi]
      rcases hd : natDigits i.natAbs with _ | ⟨d, t'⟩
      · exact absurd hd (natDigits_ne_nil _)
      · refine ⟨d, t' ++ rest, by simp, Or.inr ?_, by simp⟩
        exact natDigits_mem_digit i.natAbs d (by rw [hd]; simp)
  rcases hstart with ⟨d, t, heq, hdg, _⟩
  rw [heq, parseValue]
  have hf := numStart_facts d hdg
  rw [skipWs_cons _ _ hf.2.2.2.2.2.2]
  simp only [if_neg hf.1, if_neg hf.2.1, if_neg hf.2.2.1, if_neg hf.2.2.2.1,
    if_neg hf.2.2.2.2.1, if_neg hf.2.2.2.2.2.1]
  rw [if_pos (by
    rcases hdg with h | h
    · exact Or.inl h
    · exact Or.inr h)]
  rw [← heq]
  exact hint

theorem parseValue_scalar (f : Nat) (v : PyVal) (hv : isScalar v = true)
    (sv : List Char) (hser : serVal true v = some sv) (rest : List Char)
    (hstop : rest.head? = some ',' ∨ rest.head? = some '}') :
    parseValue (f + 1) (sv ++ rest) = some (v, rest) := by
  cases v with
  | pstr s =>
    have : sv = serStr true s := by
      simp [serVal] at hser
      exact hser.symm
    subst this
    exact parseValue_pstr f s rest
  | pint i =>
    have : sv = intRepr i := by
      simp [serVal] at hser
      exact hser.symm
    subst this
    exact parseValue_pint f i rest hstop
  | pbool b =>
    have : sv = (if b then ['t', 'r', 'u', 'e'] else ['f', 'a', 'l', 's', 'e']) := by
      cases b <;> simp [serVal] at hser <;> exact hser.symm
    subst this
    exact parseValue_pbool f b rest
  | pnull => simp [isScalar] at hv
  | plist xs => simp [isScalar] at hv
  | pdict kvs => simp [isScalar] at hv
  | pforeign => simp [isScalar] at hv

/-! ### Object members: serialization inversion and parse loop -/

theorem serMembers_single_inv {a : Bool} (k : String) (v : PyVal) (body : List Char)
    (h : serMembers a [(k, v)] = some body) :
    ∃ sv, serVal a v = some sv ∧ body = serStr a k ++ ':' :: sv := by
  rw [serMembers] at h
  rcases hv : serVal a v with _ | sv
  · rw [hv] at h
    cases h
  · rw [hv] at h
    exact ⟨sv, rfl, (Option.some.inj h).symm⟩

theorem serMembers_cons_inv {a : Bool} (k : String) (v : PyVal) (r : String × PyVal)
    (rs : List (String × PyVal)) (body : List Char)
    (h : serMembers a ((k, v) :: r :: rs) = some body) :
    ∃ sv sr, serVal a v = some sv ∧ serMembers a (r :: rs) = some sr ∧
      body = (serStr a k ++ ':' :: sv) ++ ',' :: sr := by
  rw [serMembers] at h
  case x_1 => simp
  rcases hv : serVal a v with _ | sv
  · rw [hv] at h
    cases h
  · rw [hv, bind_some_red] at h
    rcases hsr : serMembers a (r :: rs) with _ | sr
    · rw [hsr] at h
      cases h
    · rw [hsr, bind_some_red] at h
      exact ⟨sv, sr, rfl, rfl, (Option.some.inj h).symm⟩

theorem serScalar_some (v : PyVal) (hv : isScalar v = true) :
    ∃ sv, serVal true v = some sv := by
  cases v with
  | pnull => simp [isScalar] at hv
  | pbool b => cases b <;> simp [serVal]
  | pint i => simp [serVal]
  | pstr s => simp [serVal]
  | plist xs => simp [isScalar] at hv
  | pdict m => simp [isScalar] at hv
  | pforeign => simp [isScalar] at hv

theorem serMembers_some (kvs : List (String × PyVal))
    (hs : ∀ kv ∈ kvs, isScalar kv.2 = true) :
    ∃ body, serMembers true kvs = some body := by
  induction kvs with
  | nil => exact ⟨[], by rw [serMembers]⟩
  | cons kv t ih =>
    obtain ⟨sv, hsv⟩ := serScalar_some kv.2 (hs kv (by simp))
    rcases t with _ | ⟨r, rs⟩
    · exact ⟨serStr true kv.1 ++ ':' :: sv, by rw [serMembers, hsv]; rfl⟩
    · obtain ⟨sr, hsr⟩ := ih (fun x hx => hs x (by simp [hx]))
      refine ⟨(serStr true kv.1 ++ ':' :: sv) ++ ',' :: sr, ?_⟩
      rw [serMembers]
      case x_1 => simp
      rw [hsv, bind_some_red, hsr, bind_some_red]
      rfl

theorem serScalar_ascii (v : PyVal) (hv : isScalar v = true) (sv : List Char)
    (h : serVal true v = some sv) : ∀ x ∈ sv, x.toNat < 0x80 := by
  cases v with
  | pstr s =>
    have : sv = serStr true s := by
      simp [serVal] at h
      exact h.symm
    subst this
    exact serStr_ascii s
  | pint i =>
    have : sv = intRepr i := by
      simp [serVal] at h
      exact h.symm
    subst this
    exact intRepr_ascii i
  | pbool b =>
    have : sv = (if b then ['t', 'r', 'u', 'e'] else ['f', 'a', 'l', 's', 'e']) := by
      cases b <;> simp [serVal] at h <;> exact h.symm
    subst this
    cases b <;> decide
  | pnull => simp [isScalar] at hv
  | plist xs => simp [isScalar] at hv
  | pdict m => simp [isScalar] at hv
  | pforeign => simp [isScalar] at hv

theorem serMembers_ascii (kvs : List (String × PyVal))
    (hs : ∀ kv ∈ kvs, isScalar kv.2 = true) (body : List Char)
    (h : serMembers true kvs = some body) : ∀ x ∈ body, x.toNat < 0x80 := by
  induction kvs generalizing body with
  | nil =>
    rw [serMembers] at h
    rw [← Option.some.inj h]
    simp
  | cons kv t ih =>
    rcases t with _ | ⟨r, rs⟩
    · obtain ⟨sv, hsv, rfl⟩ := serMembers_single_inv kv.1 kv.2 body h
      intro x hx
      rcases List.mem_append.mp hx with hx | hx
      · exact serStr_ascii kv.1 x hx
      · rcases List.mem_cons.mp hx with rfl | hx
        · decide
        · exact serScalar_ascii kv.2 (hs kv (by simp)) sv hsv x hx
    · obtain ⟨sv, sr, hsv, hsr, rfl⟩ := serMembers_cons_inv kv.1 kv.2 r rs body h
      intro x hx
      rcases List.mem_append.mp hx with hx | hx
      · rcases List.mem_append.mp hx with hx | hx
        · exact serStr_ascii kv.1 x hx
        · rcases List.mem_cons.mp hx with rfl | hx
          · decide
          · exact serScalar_ascii kv.2 (hs kv (by simp)) sv hsv x hx
      · rcases List.mem_cons.mp hx with rfl | hx
        · decide
        · exact ih (fun y hy => hs y (by simp [hy])) sr hsr x hx

theorem serMembers_length (kvs : List (String × PyVal)) (body : List Char)
    (h : serMembers true kvs = some body) : kvs.length ≤ body.length := by
  induction kvs generalizing body with
  | nil => simp
  | cons kv t ih =>
    rcases t with _ | ⟨r, rs⟩
    · obtain ⟨sv, _, rfl⟩ := serMembers_single_inv kv.1 kv.2 body h
      simp [serStr]
    · obtain ⟨sv, sr, _, hsr, rfl⟩ := serMembers_cons_inv kv.1 kv.2 r rs body h
      have := ih sr hsr
      simp [serStr] at this ⊢
      omega

theorem dictInsert_fresh (s : List (String × α)) (k : String) (v : α)
    (h : ¬ k ∈ s.map Prod.fst) : dictInsert s k v = s ++ [(k, v)] := by
  induction s with
  | nil => rfl
  | cons kv t ih =>
    rw [dictInsert]
    rw [if_neg (by
      intro he
      exact h (by simp [← he]))]
    rw [ih (by
      intro hm
      exact h (by simp [hm]))]
    rfl

theorem foldl_dictInsert_fresh (kvs : List (String × PyVal)) :
    ∀ acc : List (String × PyVal),
    (kvs.map Prod.fst).Nodup →
    (∀ x ∈ kvs.map Prod.fst, ¬ x ∈ acc.map Prod.fst) →
    kvs.foldl (fun a kv => dictInsert a kv.1 kv.2) acc = acc ++ kvs := by
  induction kvs with
  | nil => simp
  | cons kv t ih =>
    intro acc hnd hdisj
    rw [List.foldl_cons, dictInsert_fresh acc kv.1 kv.2 (hdisj kv.1 (by simp))]
    rw [List.map_cons, List.nodup_cons] at hnd
    rw [ih (acc ++ [(kv.1, kv.2)]) hnd.2 (by
      intro x hx hmem
      rw [List.map_append, List.mem_append] at hmem
      rcases hmem with hm | hm
      · exact hdisj x (by simp [hx]) hm
      · simp at hm
        exact hnd.1 (hm ▸ hx))]
    simp

theorem serMembers_head (kvs : List (String × PyVal)) (hne : kvs ≠ [])
    (body : List Char) (h : serMembers true kvs = some body) :
    ∃ tail, body = '"' :: tail := by
  rcases kvs with _ | ⟨kv, t⟩
  · exact absurd rfl hne
  · rcases t with _ | ⟨r, rs⟩
    · obtain ⟨sv, _, rfl⟩ := serMembers_single_inv kv.1 kv.2 body h
      exact ⟨kv.1.data.flatMap (escChar true) ++ '"' :: ':' :: sv, by simp [serStr]⟩
    · obtain ⟨sv, sr, _, _, rfl⟩ := serMembers_cons_inv kv.1 kv.2 r rs body h
      exact ⟨kv.1.data.flatMap (escChar true) ++ '"' :: ':' :: (sv ++ ',' :: sr),
        by simp [serStr]⟩

theorem parseMembersLoop_ser :
    ∀ (kvs : List (String × PyVal)) (g : Nat) (acc : List (String × PyVal))
      (body rest : List Char),
      serMembers true kvs = some body →
      (∀ kv ∈ kvs, isScalar kv.2 = true) →
      kvs ≠ [] → kvs.length ≤ g →
      parseMembersLoop (g + 1) acc (body ++ '}' :: rest) =
        some (kvs.foldl (fun a kv => dictInsert a kv.1 kv.2) acc, rest) := by
  intro kvs
  induction kvs with
  | nil =>
    intro g acc body rest _ _ hne _
    exact absurd rfl hne
  | cons kv t ih =>
    intro g acc body rest hser hs _ hlen
    obtain ⟨g', rfl⟩ : ∃ g', g = g' + 1 := by
      cases g
      · simp at hlen
      · exact ⟨_, rfl⟩
    rcases t with _ | ⟨r, rs⟩
    · obtain ⟨sv, hsv, rfl⟩ := serMembers_single_inv kv.1 kv.2 body hser
      have hshape : (serStr true kv.1 ++ ':' :: sv) ++ '}' :: rest =
          '"' :: (kv.1.data.flatMap escCharAscii ++ '"' :: (':' :: (sv ++ '}' :: rest))) := by
        simp [serStr, show escChar true = escCharAscii from funext fun c => rfl]
      rw [hshape, parseMembersLoop, skipWs_cons _ _ (by decide)]
      have hstr := parseStrBody_flatMap kv.1.data (':' :: (sv ++ '}' :: rest))
      have hval := parseValue_scalar g' kv.2 (hs kv (by simp)) sv hsv ('}' :: rest)
        (Or.inr rfl)
      simp [hstr, skipWs_cons, isWs, hval, stringMkData]
    · obtain ⟨sv, sr, hsv, hsr, rfl⟩ := serMembers_cons_inv kv.1 kv.2 r rs body hser
      have hshape : (((serStr true kv.1 ++ ':' :: sv) ++ ',' :: sr)) ++ '}' :: rest =
          '"' :: (kv.1.data.flatMap escCharAscii ++ '"' ::
            (':' :: (sv ++ ',' :: (sr ++ '}' :: rest)))) := by
        simp [serStr, show escChar true = escCharAscii from funext fun c => rfl]
      rw [hshape, parseMembersLoop, skipWs_cons _ _ (by decide)]
      have hstr := parseStrBody_flatMap kv.1.data
        (':' :: (sv ++ ',' :: (sr ++ '}' :: rest)))
      have hval := parseValue_scalar g' kv.2 (hs kv (by simp)) sv hsv
        (',' :: (sr ++ '}' :: rest)) (Or.inl rfl)
      have hrec := ih g' (dictInsert acc kv.1 kv.2) sr rest hsr
        (fun x hx => hs x (by simp [hx])) (by simp)
        (by simp only [List.length_cons] at hlen ⊢; omega)
      simp [hstr, skipWs_cons, isWs, hval, stringMkData, hrec]

theorem parseValue_pdict (kvs : List (String × PyVal)) (f : Nat) (body : List Char)
    (hser : serMembers true kvs = some body)
    (hs : ∀ kv ∈ kvs, isScalar kv.2 = true)
    (hnd : (kvs.map Prod.fst).Nodup)
    (hf : kvs.length < f) (rest : List Char) :
    parseValue (f + 1) (('{' :: body ++ ['}']) ++ rest) = some (pdict kvs, rest) := by
  have hshape : ('{' :: body ++ ['}']) ++ rest = '{' :: (body ++ '}' :: rest) := by simp
  rw [hshape, parseValue, skipWs_cons _ _ (by decide)]
  rcases hkvs : kvs with _ | ⟨kv, t⟩
  · have : body = [] := by
      rw [hkvs, serMembers] at hser
      exact (Option.some.inj hser).symm
    subst this
    simp [skipWs_cons, isWs]
  · subst hkvs
    obtain ⟨tail, rfl⟩ := serMembers_head _ (by simp) body hser
    obtain ⟨g, rfl⟩ : ∃ g, f = g + 1 := by
      cases f
      · simp at hf
      · exact ⟨_, rfl⟩
    have hloop := parseMembersLoop_ser (kv :: t) g [] ('"' :: tail) rest hser hs
      (by simp) (by omega)
    rw [show ('"' :: tail) ++ '}' :: rest = '"' :: (tail ++ '}' :: rest) from rfl] at hloop ⊢
    rw [foldl_dictInsert_fresh (kv :: t) [] hnd (by simp)] at hloop
    simp [skipWs_cons, isWs, hloop]

/-- C1: the cursor round trip.  For every nesting-free scalar state map
(string keys; string, integer or boolean values; keys distinct as in any
Python dict), decoding the encoded cursor returns exactly the same map:
no key is added, dropped, or altered. -/
theorem c1_cursor_round_trip (kvs : List (String × PyVal))
    (hs : ∀ kv ∈ kvs, isScalar kv.2 = true)
    (hnd : (kvs.map Prod.fst).Nodup) :
    decode_cursor (encode_cursor (pdict kvs)) = some (pdict kvs) := by
  obtain ⟨body, hser⟩ := serMembers_some kvs hs
  have hjson : serVal true (pdict kvs) = some ('{' :: body ++ ['}']) := by
    rw [serVal, hser]
    rfl
  have hascii : ∀ c ∈ '{' :: body ++ ['}'], c.toNat < 0x80 := by
    intro c hc
    rcases List.mem_cons.mp hc with rfl | hc
    · decide
    · rcases List.mem_append.mp hc with hc | hc
      · exact serMembers_ascii kvs hs body hser c hc
      · rw [List.mem_singleton] at hc
        subst hc
        decide
  have hbytes : ∀ b ∈ utf8Encode ('{' :: body ++ ['}']), b < 256 :=
    utf8Encode_lt256 _ hascii
  have hb64 : b64decode (padEq (stripEq (b64encode (utf8Encode ('{' :: body ++ ['}']))))) =
      some (utf8Encode ('{' :: body ++ ['}'])) := b64_roundtrip _ hbytes
  have hutf8 : utf8Decode (utf8Encode ('{' :: body ++ ['}'])) =
      some ('{' :: body ++ ['}']) := utf8Decode_ascii _ hascii
  have hne : ¬ (stripEq (b64encode (utf8Encode ('{' :: body ++ ['}'])))).isEmpty = true := by
    intro he
    rw [List.isEmpty_iff.mp he] at hb64
    rw [show padEq [] = [] from rfl] at hb64
    rw [show b64decode [] = some [] from rfl] at hb64
    have := Option.some.inj hb64
    rw [show utf8Encode ('{' :: body ++ ['}']) =
        utf8EncodeChar '{' ++ utf8Encode (body ++ ['}']) from rfl] at this
    rw [utf8EncodeChar_ascii '{' (by decide)] at this
    cases this
  have hloads : loads ('{' :: body ++ ['}']) = some (pdict kvs) := by
    rw [loads]
    have hlen : kvs.length < ('{' :: body ++ ['}']).length := by
      have := serMembers_length kvs body hser
      simp
      omega
    have hpv := parseValue_pdict kvs ('{' :: body ++ ['}']).length body hser hs hnd
      (by omega) []
    rw [List.append_nil] at hpv
    rw [hpv]
    rfl
  rw [encode_cursor, hjson, decode_cursor]
  rw [if_neg hne, hb64]
  simp only [hutf8, hloads]

/-- C1 witness: the docstring's own example state `{"offset": 20, "date":
"2025-01-01"}` round-trips. -/
theorem c1_witness :
    (∀ kv ∈ ([("offset", pint 20), ("date", pstr "2025-01-01")] :
      List (String × PyVal)), isScalar kv.2 = true) ∧
    (([("offset", pint 20), ("date", pstr "2025-01-01")] :
      List (String × PyVal)).map Prod.fst).Nodup ∧
    decode_cursor (encode_cursor (pdict [("offset", pint 20),
      ("date", pstr "2025-01-01")])) =
      some (pdict [("offset", pint 20), ("date", pstr "2025-01-01")]) :=
  ⟨by decide, by decide, c1_cursor_round_trip _ (by decide) (by decide)⟩

theorem bytesLen_nil : bytesLen [] = 0 := rfl

theorem bytesLen_cons (c : Char) (cs : List Char) :
    bytesLen (c :: cs) = c.utf8Size + bytesLen cs := by
  simp [bytesLen]

theorem bytesLen_append (a b : List Char) :
    bytesLen (a ++ b) = bytesLen a + bytesLen b := by
  simp [bytesLen]

/-- C3: the code bug exhibited at the failing input `"MTIz"` (the url-safe
base64 of the JSON text `123`, a token not produced by `encode_cursor` on any
map).  The spec and the function's own docstring/annotation
(`Optional[Dict[str, Any]]`, "Dictionary …, or None if invalid") require
`None` for a non-map payload, but `decode_cursor` returns whatever
`json.loads` produced — here the integer 123. -/
theorem c3_nonmap_payload :
    decode_cursor ['M', 'T', 'I', 'z'] = some (pint 123) ∧
    (decode_cursor ['M', 'T', 'I', 'z']).isSome = true := ⟨rfl, rfl⟩

/-- C9: when `json.dumps` fails inside `encode_cursor`, the exception is
caught and the empty string is returned; `decode_cursor` maps the empty
string to None (`if not cursor`), so a failed encode round-trips to the
no-cursor state without any exception. -/
theorem c9_encode_failure (v : PyVal) (h : serVal true v = none) :
    encode_cursor v = [] ∧ decode_cursor (encode_cursor v) = none := by
  refine ⟨?_, ?_⟩ <;> simp [encode_cursor, h, decode_cursor]

/-- C9 witness: a map holding a non-JSON-serializable object. -/
theorem c9_witness :
    serVal true (pdict [("k", pforeign)]) = none ∧
    encode_cursor (pdict [("k", pforeign)]) = [] ∧
    decode_cursor (encode_cursor (pdict [("k", pforeign)])) = none := by
  have h : serVal true (pdict [("k", pforeign)]) = none := by
    simp [serVal, serMembers]
  exact ⟨h, (c9_encode_failure (pdict [("k", pforeign)]) h).1,
    (c9_encode_failure (pdict [("k", pforeign)]) h).2⟩

/-- C5 counterexample: one item with `page_size = 1` (so `hasMore` is true)
and a non-null but empty `cursor_data`.  The claim requires a `nextCursor`
(the supplied next-state is non-null), but `if has_more and cursor_data`
tests Python truthiness, and the empty dict is falsy, so no cursor is
emitted. -/
theorem c5_counterexample :
    dictGet (paginationFields (create_pagination_response [pnull] (some []) 1 none))
      "hasMore" = some (pbool true) ∧
    dictGet (paginationFields (create_pagination_response [pnull] (some []) 1 none))
      "nextCursor" = none := ⟨rfl, rfl⟩

/-- C5 (amended): `create_pagination_response` reports `returned =
len(items)`, derives `hasMore` as `len(items) == page_size` unless the caller
supplies an explicit boolean, and includes `nextCursor = encode_cursor
(next-state)` iff `hasMore` is true and the supplied next-state is non-null
AND non-empty (Python truthiness of the dict). -/
theorem c5_pagination_amended (items : List PyVal)
    (cursor_data : Option (List (String × PyVal))) (page_size : Nat)
    (has_more : Option Bool) :
    dictGet (paginationFields
        (create_pagination_response items cursor_data page_size has_more))
      "returned" = some (pint items.length) ∧
    dictGet (paginationFields
        (create_pagination_response items cursor_data page_size has_more))
      "hasMore" = some (pbool (has_more.getD (items.length == page_size))) ∧
    dictGet (paginationFields
        (create_pagination_response items cursor_data page_size has_more))
      "nextCursor" =
      (if has_more.getD (items.length == page_size) && pyTruthyDict cursor_data then
        some (pstr (String.mk (encode_cursor (pdict (cursor_data.getD [])))))
      else none) := by
  have hm : (match has_more with
      | none => items.length == page_size
      | some b => b) = has_more.getD (items.length == page_size) := by
    cases has_more <;> rfl
  by_cases hc : has_more.getD (items.length == page_size) && pyTruthyDict cursor_data
  · refine ⟨?_, ?_, ?_⟩ <;>
      simp [create_pagination_response, paginationFields, dictGet, dictInsert, hm, hc]
  · refine ⟨?_, ?_, ?_⟩ <;>
      simp [create_pagination_response, paginationFields, dictGet, dictInsert, hm, hc]

/-- C4 counterexample: an entry whose expiry equals the current instant.  The
claim requires NotFound (`now < expires_at` fails at `now = expires_at = 5`),
but the code's test is `datetime.now() > entry['expires_at']`, so it returns
the stored payload. -/
theorem c4_counterexample :
    ((cacheGet [("k", ⟨pstr "x", 5, "a", "f"⟩)] "k" 5).1).isSome = true := rfl

/-- C4 (amended): `OverflowDataCache.get` returns the stored payload when the
entry is present and `now ≤ expires_at` (not `now < expires_at`); on a missing
key it returns None with the store unchanged; on an entry with
`expires_at < now` it deletes exactly that entry and returns None. -/
theorem c4_get_amended (store : OverflowStore) (k : String) (now : Nat) :
    (dictGet store k = none → cacheGet store k now = (none, store)) ∧
    (∀ e, dictGet store k = some e → now ≤ e.expires_at →
      cacheGet store k now = (some e.data, store)) ∧
    (∀ e, dictGet store k = some e → e.expires_at < now →
      cacheGet store k now = (none, removeKey store k)) := by
  refine ⟨fun h => by simp [cacheGet, h], fun e he hle => ?_, fun e he hlt => ?_⟩
  · have : ¬ now > e.expires_at := Nat.not_lt.mpr hle
    simp [cacheGet, he, this]
  · simp [cacheGet, he, hlt]

/-- C4 witness: a live entry (now 3 ≤ expiry 10) is returned with the store
unchanged; an expired entry (expiry 2 < now 3) yields None and is deleted. -/
theorem c4_witness :
    cacheGet [("k", ⟨pstr "x", 10, "a", "f"⟩)] "k" 3 =
      (some (pstr "x"), [("k", ⟨pstr "x", 10, "a", "f"⟩)]) ∧
    cacheGet [("k", ⟨pstr "x", 2, "a", "f"⟩)] "k" 3 = (none, []) := by
  constructor
  · exact (c4_get_amended [("k", ⟨pstr "x", 10, "a", "f"⟩)] "k" 3).2.1
      ⟨pstr "x", 10, "a", "f"⟩ rfl (by decide)
  · have h := (c4_get_amended [("k", ⟨pstr "x", 2, "a", "f"⟩)] "k" 3).2.2
      ⟨pstr "x", 2, "a", "f"⟩ rfl (by decide)
    simpa [removeKey] using h

/-- C7 counterexample: one entry with `expires_at = now = 5`.  The claim
requires the sweep to remove it (`expires_at <= now`) and to return the count
1, but the code's test is strict (`now > expires_at`) so the entry stays, and
the Python function has no return statement (returns None, not a count). -/
theorem c7_counterexample :
    ¬ ((cleanup_expired [("k", ⟨pstr "x", 5, "a", "f"⟩)] 5).1 = [] ∧
       (cleanup_expired [("k", ⟨pstr "x", 5, "a", "f"⟩)] 5).2 = some 1) := by
  intro h
  have h1 := h.1
  simp [cleanup_expired, removeKey] at h1

/-- C7 (amended): `cleanup_expired` removes exactly the entries with
`expires_at < now` (strict), keeping the rest in order, and returns nothing
(None) — the number removed is only logged, never returned. -/
theorem c7_cleanup_amended (store : OverflowStore) (now : Nat)
    (hnd : (store.map Prod.fst).Nodup) :
    (cleanup_expired store now).1 =
      store.filter (fun kv => ! decide (kv.2.expires_at < now)) ∧
    (cleanup_expired store now).2 = none := by
  refine ⟨?_, rfl⟩
  show ((store.filter (fun kv => now > kv.2.expires_at)).map Prod.fst).foldl
      removeKey store = _
  rw [foldl_removeKey]
  refine List.filter_congr ?_
  intro kv hkv
  by_cases he : kv.2.expires_at < now
  · have : kv.1 ∈ (store.filter (fun kv => now > kv.2.expires_at)).map Prod.fst :=
      List.mem_map_of_mem Prod.fst (List.mem_filter.mpr ⟨hkv, by simpa using he⟩)
    simp [he, this]
  · have : kv.1 ∉ (store.filter (fun kv => now > kv.2.expires_at)).map Prod.fst := by
      intro hmem
      rcases List.mem_map.mp hmem with ⟨kv', hkv', hfst⟩
      have hkv'' := List.mem_filter.mp hkv'
      have : kv' = kv := nodupKeys_eq hnd hkv''.1 hkv hfst
      subst this
      exact he (by simpa using hkv''.2)
    simp [he, this]

/-- C7 witness: with entries expiring at 2 and 9 and `now = 5`, the sweep
removes only the first and returns None. -/
theorem c7_witness :
    cleanup_expired [("a", ⟨pnull, 2, "x", "y"⟩), ("b", ⟨pnull, 9, "x", "y"⟩)] 5 =
      ([("b", ⟨pnull, 9, "x", "y"⟩)], none) := by
  have h := c7_cleanup_amended
    [("a", ⟨pnull, 2, "x", "y"⟩), ("b", ⟨pnull, 9, "x", "y"⟩)] 5 (by decide)
  rw [Prod.ext_iff]
  exact ⟨h.1.trans rfl, h.2⟩

/-- C10: `OverflowDataCache.get` never touches any entry other than the one at
the requested key: every other key's binding is preserved; if the entry is
absent or unexpired the store is left exactly as it was; if it is expired,
exactly that entry is deleted. -/
theorem c10_get_frame (store : OverflowStore) (k : String) (now : Nat) :
    (∀ k', k' ≠ k → dictGet (cacheGet store k now).2 k' = dictGet store k') ∧
    ((∀ e, dictGet store k = some e → now ≤ e.expires_at) →
      (cacheGet store k now).2 = store) ∧
    (∀ e, dictGet store k = some e → e.expires_at < now →
      (cacheGet store k now).2 = removeKey store k ∧
      dictGet (cacheGet store k now).2 k = none) := by
  refine ⟨fun k' hk' => ?_, fun hlive => ?_, fun e he hlt => ?_⟩
  · unfold cacheGet
    cases hm : dictGet store k with
    | none => rfl
    | some e =>
      by_cases hgt : now > e.expires_at
      · simp only [hgt, if_pos]
        exact dictGet_removeKey_ne store k k' hk'
      · simp [hgt]
  · unfold cacheGet
    cases hm : dictGet store k with
    | none => rfl
    | some e =>
      have : ¬ now > e.expires_at := Nat.not_lt.mpr (hlive e hm)
      simp [this]
  · have : cacheGet store k now = (none, removeKey store k) := by
      simp [cacheGet, he, hlt]
    rw [this]
    exact ⟨rfl, dictGet_removeKey_self store k⟩

/-! ### Size accounting for the response splitter -/

theorem utf8Size_ascii (c : Char) (h : c.toNat < 0x80) : c.utf8Size = 1 := by
  unfold Char.utf8Size
  have hle : c.val ≤ 0x7F := by
    have : c.val.toNat ≤ 127 := Nat.le_of_lt_succ h
    exact UInt32.le_def.mpr (by simpa using this)
  simp [hle]

theorem bytesLen_ascii (cs : List Char) (h : ∀ c ∈ cs, c.toNat < 0x80) :
    bytesLen cs = cs.length := by
  induction cs with
  | nil => rfl
  | cons c t ih =>
    rw [bytesLen_cons, utf8Size_ascii c (h c (by simp)),
      ih (fun a ha => h a (by simp [ha])), List.length_cons]
    omega

theorem est_serVal (v : PyVal) (sv : List Char) (h : serVal false v = some sv) :
    estimate_json_size v = bytesLen sv := by
  rw [estimate_json_size, h]

theorem est_pstr (s : String) :
    estimate_json_size (pstr s) = bytesLen (s.data.flatMap escCharRaw) + 2 := by
  have hser : serVal false (pstr s) = some (serStr false s) := by simp [serVal]
  rw [est_serVal _ _ hser, serStr]
  rw [show escChar false = escCharRaw from funext fun c => rfl]
  rw [show ('"' :: s.data.flatMap escCharRaw ++ ['"']) =
    ['"'] ++ s.data.flatMap escCharRaw ++ ['"'] from rfl]
  rw [bytesLen_append, bytesLen_append]
  have : bytesLen ['"'] = 1 := by decide
  omega

theorem est_pstr_append (a b : String) :
    estimate_json_size (pstr (a ++ b)) + 2 =
      estimate_json_size (pstr a) + estimate_json_size (pstr b) := by
  rw [est_pstr, est_pstr, est_pstr]
  rw [show (a ++ b).data = a.data ++ b.data from rfl, List.flatMap_append,
    bytesLen_append]
  omega

theorem est_pos_some (v : PyVal) (h : 0 < estimate_json_size v) :
    ∃ cs, serVal false v = some cs := by
  rcases hv : serVal false v with _ | cs
  · simp [estimate_json_size, hv] at h
  · exact ⟨cs, rfl⟩

theorem serVal_pdict_inv (ms : List (String × PyVal)) (cs : List Char)
    (h : serVal false (pdict ms) = some cs) :
    ∃ body, serMembers false ms = some body ∧ cs = '{' :: body ++ ['}'] := by
  rw [serVal] at h
  rcases hb : serMembers false ms with _ | body
  · rw [hb] at h
    cases h
  · rw [hb] at h
    exact ⟨body, rfl, (Option.some.inj h).symm⟩

theorem serMembers_bytes (ms : List (String × PyVal)) (body : List Char)
    (h : serMembers false ms = some body) (hne : ms ≠ []) :
    bytesLen body + 1 = msum ms := by
  induction ms generalizing body with
  | nil => exact absurd rfl hne
  | cons kv t ih =>
    rcases t with _ | ⟨r, rs⟩
    · obtain ⟨sv, hsv, rfl⟩ := serMembers_single_inv kv.1 kv.2 body h
      rw [bytesLen_append, msum]
      simp only [List.map_cons, List.map_nil, List.sum_cons, List.sum_nil]
      rw [memberBytes, est_serVal kv.2 sv hsv, bytesLen_cons]
      have : (':' : Char).utf8Size = 1 := by decide
      omega
    · obtain ⟨sv, sr, hsv, hsr, rfl⟩ := serMembers_cons_inv kv.1 kv.2 r rs body h
      have hrec := ih sr hsr (by simp)
      rw [bytesLen_append, bytesLen_append, bytesLen_cons]
      rw [msum] at hrec ⊢
      simp only [List.map_cons, List.sum_cons] at hrec ⊢
      rw [memberBytes, est_serVal kv.2 sv hsv, bytesLen_cons]
      have h1 : (':' : Char).utf8Size = 1 := by decide
      have h2 : (',' : Char).utf8Size = 1 := by decide
      omega

theorem est_pdict_msum (ms : List (String × PyVal)) (body : List Char)
    (h : serMembers false ms = some body) (hne : ms ≠ []) :
    estimate_json_size (pdict ms) = msum ms + 1 := by
  have hser : serVal false (pdict ms) = some ('{' :: body ++ ['}']) := by
    rw [serVal, h]
    rfl
  rw [est_serVal _ _ hser]
  rw [show ('{' :: body ++ ['}']) = ['{'] ++ body ++ ['}'] from rfl,
    bytesLen_append, bytesLen_append]
  have h1 : bytesLen ['{'] = 1 := by decide
  have h2 : bytesLen ['}'] = 1 := by decide
  have := serMembers_bytes ms body h hne
  omega

theorem est_pdict_pos (ms : List (String × PyVal)) (body : List Char)
    (h : serMembers false ms = some body) : 0 < estimate_json_size (pdict ms) := by
  have hser : serVal false (pdict ms) = some ('{' :: body ++ ['}']) := by
    rw [serVal, h]
    rfl
  rw [est_serVal _ _ hser]
  rw [show ('{' :: body ++ ['}']) = ['{'] ++ body ++ ['}'] from rfl,
    bytesLen_append, bytesLen_append]
  have : bytesLen ['{'] = 1 := by decide
  omega

theorem serMembers_false_some_inv (ms : List (String × PyVal)) (body : List Char)
    (h : serMembers false ms = some body) :
    ∀ kv ∈ ms, ∃ sv, serVal false kv.2 = some sv := by
  induction ms generalizing body with
  | nil => simp
  | cons kv t ih =>
    rcases t with _ | ⟨r, rs⟩
    · obtain ⟨sv, hsv, _⟩ := serMembers_single_inv kv.1 kv.2 body h
      intro x hx
      rcases List.mem_cons.mp hx with rfl | hx
      · exact ⟨sv, hsv⟩
      · cases hx
    · obtain ⟨sv, sr, hsv, hsr, _⟩ := serMembers_cons_inv kv.1 kv.2 r rs body h
      intro x hx
      rcases List.mem_cons.mp hx with rfl | hx
      · exact ⟨sv, hsv⟩
      · exact ih sr hsr x hx

/-! ### String suffix disambiguation for the splitter's synthetic keys -/

theorem strApp_cancel (a b s : String) (h : a ++ s = b ++ s) : a = b := by
  have hd : a.data ++ s.data = b.data ++ s.data := congrArg String.data h
  have h2 : a.data = b.data := List.append_cancel_right hd
  cases a
  cases b
  exact congrArg String.mk h2

theorem strApp_suffix_eq (a b u v : String) (hlen : u.length = v.length)
    (h : a ++ u = b ++ v) : u = v := by
  have hd : a.data ++ u.data = b.data ++ v.data := congrArg String.data h
  have hrev := congrArg List.reverse hd
  rw [List.reverse_append, List.reverse_append] at hrev
  have hl : u.data.reverse.length = v.data.reverse.length := by
    simp only [List.length_reverse]
    exact hlen
  have h1 := (List.append_inj hrev hl).1
  have h2 := congrArg List.reverse h1
  rw [List.reverse_reverse, List.reverse_reverse] at h2
  cases u
  cases v
  exact congrArg String.mk h2

theorem suffix_ne_res_note (a b : String) : ¬ a ++ "_resource" = b ++ "_note" := by
  intro h
  have hd := congrArg (fun s => s.data.reverse) h
  simp [List.reverse_append] at hd

theorem suffix_ne_res_omit (a b : String) : ¬ a ++ "_resource" = b ++ "_omitted" := by
  intro h
  have hd := congrArg (fun s => s.data.reverse) h
  simp [List.reverse_append] at hd

theorem suffix_ne_note_omit (a b : String) : ¬ a ++ "_note" = b ++ "_omitted" := by
  intro h
  have hd := congrArg (fun s => s.data.reverse) h
  simp [List.reverse_append] at hd

theorem suffix_ne_res_info (a : String) : ¬ a ++ "_resource" = "_overflow_info" := by
  intro h
  have hd := congrArg (fun s => s.data.reverse) h
  simp [List.reverse_append] at hd

theorem suffix_ne_note_info (a : String) : ¬ a ++ "_note" = "_overflow_info" := by
  intro h
  have hd := congrArg (fun s => s.data.reverse) h
  simp [List.reverse_append] at hd

theorem suffix_ne_omit_info (a : String) : ¬ a ++ "_omitted" = "_overflow_info" := by
  intro h
  have hd := congrArg (fun s => s.data.reverse) h
  simp [List.reverse_append] at hd

/-- C10 witness: with "k" expired (2 < 5) and "j" live, getting "k" leaves the
binding of "j" untouched. -/
theorem c10_witness :
    dictGet ((cacheGet [("k", ⟨pnull, 2, "x", "y"⟩), ("j", ⟨pnull, 9, "x", "y"⟩)]
        "k" 5).2) "j" = some ⟨pnull, 9, "x", "y"⟩ :=
  ((c10_get_frame [("k", ⟨pnull, 2, "x", "y"⟩), ("j", ⟨pnull, 9, "x", "y"⟩)]
      "k" 5).1 "j" (by decide)).trans rfl

/-! ### Association-list lookup over appends -/

theorem dictGet_eq_none (s : List (String × α)) (k : String)
    (h : ¬ k ∈ s.map Prod.fst) : dictGet s k = none := by
  induction s with
  | nil => rfl
  | cons kv t ih =>
    rw [dictGet]
    rw [if_neg (fun he => h (by simp [he]))]
    exact ih (fun hm => h (by simp at hm ⊢; right; exact hm))

theorem dictGet_append_left (a b : List (String × α)) (k : String) (v : α)
    (h : dictGet a k = some v) : dictGet (a ++ b) k = some v := by
  induction a with
  | nil => cases h
  | cons kv t ih =>
    rw [dictGet] at h
    rw [List.cons_append, dictGet]
    by_cases he : kv.1 = k
    · rw [if_pos he] at h ⊢
      exact h
    · rw [if_neg he] at h ⊢
      exact ih h

theorem dictGet_append_right (a b : List (String × α)) (k : String)
    (h : ¬ k ∈ a.map Prod.fst) : dictGet (a ++ b) k = dictGet b k := by
  induction a with
  | nil => rfl
  | cons kv t ih =>
    rw [List.cons_append, dictGet]
    rw [if_neg (fun he => h (by simp [he]))]
    exact ih (fun hm => h (by simp at hm ⊢; right; exact hm))

theorem dictGet_of_mem_nodup (s : List (String × α))
    (hn : (s.map Prod.fst).Nodup) (k : String) (v : α) (hm : (k, v) ∈ s) :
    dictGet s k = some v := by
  induction s with
  | nil => cases hm
  | cons kv t ih =>
    rw [List.map_cons, List.nodup_cons] at hn
    rw [dictGet]
    rcases List.mem_cons.mp hm with rfl | hm
    · rw [if_pos rfl]
    · have hne : kv.1 ≠ k := by
        intro he
        exact hn.1 (he ▸ List.mem_map.mpr ⟨(k, v), hm, rfl⟩)
      rw [if_neg hne]
      exact ih hn.2 hm

/-! ### Structure of the closed-form field-loop outputs -/

theorem splitOutNone_keys (data : List (String × PyVal)) :
    (splitOutNone data).map Prod.fst = outKeysNone data := by
  induction data with
  | nil => rfl
  | cons kv rest ih =>
    rw [splitOutNone, outKeysNone, List.flatMap_cons, List.flatMap_cons, List.map_append]
    rw [splitOutNone, outKeysNone] at ih
    rw [ih]
    by_cases hL : is_large_field kv.1 kv.2 50000 <;> simp [hL]

theorem outKeysCb_cons (kv : String × PyVal) (rest : List (String × PyVal)) :
    outKeysCb (kv :: rest) =
      (if is_large_field kv.1 kv.2 50000 then [kv.1 ++ "_resource", kv.1 ++ "_note"]
       else [kv.1]) ++ outKeysCb rest := by
  simp [outKeysCb]

theorem outKeysNone_cons (kv : String × PyVal) (rest : List (String × PyVal)) :
    outKeysNone (kv :: rest) =
      (if is_large_field kv.1 kv.2 50000 then [kv.1 ++ "_omitted"] else [kv.1]) ++
        outKeysNone rest := by
  simp [outKeysNone]

theorem splitOutCb_keys (aid : String) (gen : Nat → String) (now : Nat)
    (data : List (String × PyVal)) :
    ∀ n, ((splitOutCb aid gen now data n).1).map Prod.fst = outKeysCb data := by
  induction data with
  | nil => intro n; rfl
  | cons kv rest ih =>
    intro n
    rcases kv with ⟨k, v⟩
    rw [outKeysCb_cons]
    by_cases hL : is_large_field k v 50000
    · rcases hrec : splitOutCb aid gen now rest (n + 1) with ⟨out, ents, n'⟩
      simp only [splitOutCb, hL, if_true, hrec]
      have := ih (n + 1)
      rw [hrec] at this
      simp only [List.map_cons] at this ⊢
      rw [this]
      simp [hL]
    · rcases hrec : splitOutCb aid gen now rest n with ⟨out, ents, n'⟩
      have hih := ih n
      rw [hrec] at hih
      simp [splitOutCb, hL, hrec, hih]

theorem splitOutCb_counter (aid : String) (gen : Nat → String) (now : Nat)
    (data : List (String × PyVal)) :
    ∀ n, (splitOutCb aid gen now data n).2.2 =
      n + (data.filter (fun kv => is_large_field kv.1 kv.2 50000)).length := by
  induction data with
  | nil => intro n; rfl
  | cons kv rest ih =>
    intro n
    rcases kv with ⟨k, v⟩
    by_cases hL : is_large_field k v 50000
    · rcases hrec : splitOutCb aid gen now rest (n + 1) with ⟨out, ents, n'⟩
      simp only [splitOutCb, hL, if_true, hrec]
      have := ih (n + 1)
      rw [hrec] at this
      simp only [List.filter_cons, hL, if_true, List.length_cons]
      simp at this ⊢
      omega
    · rcases hrec : splitOutCb aid gen now rest n with ⟨out, ents, n'⟩
      simp only [splitOutCb, hL, if_false, hrec]
      have := ih n
      rw [hrec] at this
      simp only [List.filter_cons, hL, if_false]
      simpa using this

theorem splitOutCb_ents_length (aid : String) (gen : Nat → String) (now : Nat)
    (data : List (String × PyVal)) :
    ∀ n, (splitOutCb aid gen now data n).2.1.length =
      (data.filter (fun kv => is_large_field kv.1 kv.2 50000)).length := by
  induction data with
  | nil => intro n; rfl
  | cons kv rest ih =>
    intro n
    rcases kv with ⟨k, v⟩
    by_cases hL : is_large_field k v 50000
    · rcases hrec : splitOutCb aid gen now rest (n + 1) with ⟨out, ents, n'⟩
      simp only [splitOutCb, hL, if_true, hrec]
      have := ih (n + 1)
      rw [hrec] at this
      simp only [List.filter_cons, hL, if_true, List.length_cons]
      simp at this ⊢
      omega
    · rcases hrec : splitOutCb aid gen now rest n with ⟨out, ents, n'⟩
      simp only [splitOutCb, hL, if_false, hrec]
      have := ih n
      rw [hrec] at this
      simp only [List.filter_cons, hL, if_false]
      simpa using this

theorem splitOutCb_ents_shape (aid : String) (gen : Nat → String) (now : Nat)
    (data : List (String × PyVal)) :
    ∀ n, ∀ e ∈ (splitOutCb aid gen now data n).2.1,
      (∃ m k, n ≤ m ∧ m < n + data.length ∧ e.1 = aid ++ "_" ++ k ++ "_" ++ gen m) ∧
      e.2.expires_at = now + 3600 := by
  induction data with
  | nil => intro n e he; cases he
  | cons kv rest ih =>
    intro n e he
    rcases kv with ⟨k, v⟩
    by_cases hL : is_large_field k v 50000
    · rcases hrec : splitOutCb aid gen now rest (n + 1) with ⟨out, ents, n'⟩
      simp only [splitOutCb, hL, if_true, hrec] at he
      rcases List.mem_cons.mp he with rfl | he
      · exact ⟨⟨n, k, le_refl n, by simp, rfl⟩, rfl⟩
      · have := ih (n + 1) e (by rw [hrec]; exact he)
        obtain ⟨⟨m, k', hm1, hm2, hm3⟩, hexp⟩ := this
        exact ⟨⟨m, k', by omega, by simp at hm2 ⊢; omega, hm3⟩, hexp⟩
    · rcases hrec : splitOutCb aid gen now rest n with ⟨out, ents, n'⟩
      simp only [splitOutCb, hL, if_false, hrec] at he
      have := ih n e (by rw [hrec]; exact he)
      obtain ⟨⟨m, k', hm1, hm2, hm3⟩, hexp⟩ := this
      exact ⟨⟨m, k', hm1, by simp at hm2 ⊢; omega, hm3⟩, hexp⟩

theorem cid_eq_counter (aid : String) (gen : Nat → String)
    (hglen : ∀ n, (gen n).length = 8) (m n : Nat) (k k' : String)
    (h : aid ++ "_" ++ k ++ "_" ++ gen m = aid ++ "_" ++ k' ++ "_" ++ gen n) :
    gen m = gen n :=
  strApp_suffix_eq (aid ++ "_" ++ k ++ "_") (aid ++ "_" ++ k' ++ "_") (gen m) (gen n)
    (by rw [hglen, hglen]) h

theorem splitOutCb_ents_nodup (aid : String) (gen : Nat → String) (now : Nat)
    (hglen : ∀ n, (gen n).length = 8)
    (data : List (String × PyVal)) :
    ∀ n, (∀ a b, a < n + data.length → b < n + data.length → gen a = gen b → a = b) →
    ((splitOutCb aid gen now data n).2.1.map Prod.fst).Nodup := by
  induction data with
  | nil => intro n _; exact List.nodup_nil
  | cons kv rest ih =>
    intro n hginj
    rcases kv with ⟨k, v⟩
    by_cases hL : is_large_field k v 50000
    · rcases hrec : splitOutCb aid gen now rest (n + 1) with ⟨out, ents, n'⟩
      simp only [splitOutCb, hL, if_true, hrec, List.map_cons, List.nodup_cons]
      constructor
      · intro hmem
        obtain ⟨e, hme, heq⟩ := List.mem_map.mp hmem
        obtain ⟨⟨m, k', hm1, hm2, hm3⟩, _⟩ :=
          splitOutCb_ents_shape aid gen now rest (n + 1) e (by rw [hrec]; exact hme)
        rw [hm3] at heq
        have hg : gen m = gen n := cid_eq_counter aid gen hglen m n k' k heq
        have : m = n := hginj m n (by simp only [List.length_cons] at hm2 ⊢; omega)
          (by simp only [List.length_cons]; omega) hg
        omega
      · have := ih (n + 1) (fun a b ha hb => hginj a b (by simp at ha ⊢; omega)
          (by simp at hb ⊢; omega))
        rw [hrec] at this
        exact this
    · rcases hrec : splitOutCb aid gen now rest n with ⟨out, ents, n'⟩
      simp only [splitOutCb, hL, if_false, hrec]
      have := ih n (fun a b ha hb => hginj a b (by simp at ha ⊢; omega)
        (by simp at hb ⊢; omega))
      rw [hrec] at this
      exact this

theorem splitOutNone_cons (kv : String × PyVal) (rest : List (String × PyVal)) :
    splitOutNone (kv :: rest) =
      (if is_large_field kv.1 kv.2 50000 then
        [(kv.1 ++ "_omitted", pstr (omittedNote (estimate_json_size kv.2)))]
       else [kv]) ++ splitOutNone rest := by
  simp [splitOutNone]

/-- The field loop with no callback: provided the input keys and the produced
output keys are collision-free, it appends the closed-form `splitOutNone`
transform to the accumulator, collects the large fields, and leaves the
threaded state untouched. -/
theorem splitFields_none_eq {σ : Type} (data : List (String × PyVal)) :
    ∀ (acc over : List (String × PyVal)) (st : σ),
    (data.map Prod.fst).Nodup →
    (outKeysNone data).Nodup →
    (∀ x ∈ outKeysNone data, ¬ x ∈ acc.map Prod.fst) →
    (∀ kv ∈ data, ¬ kv.1 ∈ over.map Prod.fst) →
    splitFields (none : Option (String → PyVal → σ → String × σ)) data acc over st =
      (acc ++ splitOutNone data,
       over ++ data.filter (fun kv => is_large_field kv.1 kv.2 50000), st) := by
  induction data with
  | nil =>
    intro acc over st _ _ _ _
    simp [splitFields, splitOutNone]
  | cons kv rest ih =>
    intro acc over st hkeys houtn hacc hover
    rcases kv with ⟨k, v⟩
    rw [List.map_cons, List.nodup_cons] at hkeys
    rw [outKeysNone_cons] at houtn hacc
    by_cases hL : is_large_field k v 50000
    · rw [if_pos hL] at houtn hacc
      rw [List.nodup_append] at houtn
      have hkom : ¬ (k ++ "_omitted") ∈ acc.map Prod.fst :=
        hacc (k ++ "_omitted") (by simp)
      have hstep : splitFields (none : Option (String → PyVal → σ → String × σ))
            ((k, v) :: rest) acc over st =
          splitFields none rest
            (dictInsert acc (k ++ "_omitted")
              (pstr (omittedNote (estimate_json_size v))))
            (dictInsert over k v) st := by
        simp [splitFields, hL]
      rw [hstep, dictInsert_fresh _ _ _ hkom,
        dictInsert_fresh _ _ _ (hover (k, v) (by simp))]
      rw [ih (acc ++ [(k ++ "_omitted", pstr (omittedNote (estimate_json_size v)))])
        (over ++ [(k, v)]) st hkeys.2 houtn.2.1
        (fun x hx => by
          rw [List.map_append]
          intro hmem
          rcases List.mem_append.mp hmem with hm | hm
          · exact hacc x (by simp [hx]) hm
          · simp at hm
            exact houtn.2.2 (by simp [hm]) hx)
        (fun kv hkv => by
          rw [List.map_append]
          intro hmem
          rcases List.mem_append.mp hmem with hm | hm
          · exact hover kv (by simp [hkv]) hm
          · simp at hm
            exact hkeys.1 (hm ▸ List.mem_map.mpr ⟨kv, hkv, rfl⟩))]
      rw [splitOutNone_cons, if_pos hL, List.filter_cons, if_pos hL]
      simp
    · rw [if_neg hL] at houtn hacc
      rw [List.nodup_append] at houtn
      have hstep : splitFields (none : Option (String → PyVal → σ → String × σ))
            ((k, v) :: rest) acc over st =
          splitFields none rest (dictInsert acc k v) over st := by
        simp [splitFields, hL]
      rw [hstep, dictInsert_fresh _ _ _ (hacc k (by simp))]
      rw [ih (acc ++ [(k, v)]) over st hkeys.2 houtn.2.1
        (fun x hx => by
          rw [List.map_append]
          intro hmem
          rcases List.mem_append.mp hmem with hm | hm
          · exact hacc x (by simp [hx]) hm
          · simp at hm
            exact houtn.2.2 (by simp [hm]) hx)
        (fun kv hkv => hover kv (by simp [hkv]))]
      rw [splitOutNone_cons, if_neg hL, List.filter_cons, if_neg hL]
      simp

/-- The field loop driven by the server's overflow callback: provided the keys
are collision-free, the uuid supply is injective on the counters consumed, and
the generated cache ids are fresh for the store, the loop appends the
closed-form `splitOutCb` transform to the accumulator, collects the large
fields, appends one store entry per large field, and advances the counter. -/
theorem splitFields_cb_eq (aid : String) (gen : Nat → String) (now : Nat)
    (hglen : ∀ n, (gen n).length = 8)
    (data : List (String × PyVal)) :
    ∀ (acc over : List (String × PyVal)) (store0 : OverflowStore) (n0 : Nat),
    (∀ a b, a < n0 + data.length → b < n0 + data.length → gen a = gen b → a = b) →
    (data.map Prod.fst).Nodup →
    (outKeysCb data).Nodup →
    (∀ x ∈ outKeysCb data, ¬ x ∈ acc.map Prod.fst) →
    (∀ kv ∈ data, ¬ kv.1 ∈ over.map Prod.fst) →
    (∀ n k, n0 ≤ n → n < n0 + data.length →
      ¬ (aid ++ "_" ++ k ++ "_" ++ gen n) ∈ store0.map Prod.fst) →
    splitFields (some (overflowCallback aid gen now)) data acc over (store0, n0) =
      (acc ++ (splitOutCb aid gen now data n0).1,
       over ++ data.filter (fun kv => is_large_field kv.1 kv.2 50000),
       (store0 ++ (splitOutCb aid gen now data n0).2.1,
        (splitOutCb aid gen now data n0).2.2)) := by
  induction data with
  | nil =>
    intro acc over store0 n0 _ _ _ _ _ _
    simp [splitFields, splitOutCb]
  | cons kv rest ih =>
    intro acc over store0 n0 hginj hkeys houtn hacc hover hstore
    rcases kv with ⟨k, v⟩
    rw [List.map_cons, List.nodup_cons] at hkeys
    rw [outKeysCb_cons] at houtn hacc
    by_cases hL : is_large_field k v 50000
    · rw [if_pos hL] at houtn hacc
      rw [List.nodup_append] at houtn
      rcases hrec : splitOutCb aid gen now rest (n0 + 1) with ⟨out, ents, n'⟩
      have hres : ¬ (k ++ "_resource") ∈ acc.map Prod.fst :=
        hacc (k ++ "_resource") (by simp)
      have hnote : ¬ (k ++ "_note") ∈ acc.map Prod.fst :=
        hacc (k ++ "_note") (by simp)
      have hcid : ¬ (aid ++ "_" ++ k ++ "_" ++ gen n0) ∈ store0.map Prod.fst :=
        hstore n0 k (le_refl n0) (by simp only [List.length_cons]; omega)
      have hstep : splitFields (some (overflowCallback aid gen now))
            ((k, v) :: rest) acc over (store0, n0) =
          splitFields (some (overflowCallback aid gen now)) rest
            (dictInsert (dictInsert acc (k ++ "_resource")
                (pstr ("overflow://" ++ (aid ++ "_" ++ k ++ "_" ++ gen n0))))
              (k ++ "_note")
              (pstr (resourceNote
                ("overflow://" ++ (aid ++ "_" ++ k ++ "_" ++ gen n0)))))
            (dictInsert over k v)
            (dictInsert store0 (aid ++ "_" ++ k ++ "_" ++ gen n0)
              ⟨v, now + 3600, aid, k⟩, n0 + 1) := by
        simp [splitFields, hL, overflowCallback, cacheStore]
      rw [hstep, dictInsert_fresh _ _ _ hres]
      rw [dictInsert_fresh _ _ _ (show ¬ (k ++ "_note") ∈
          (acc ++ [(k ++ "_resource",
            pstr ("overflow://" ++ (aid ++ "_" ++ k ++ "_" ++ gen n0)))]).map Prod.fst by
        rw [List.map_append]
        intro hmem
        rcases List.mem_append.mp hmem with hm | hm
        · exact hnote hm
        · simp at hm
          exact suffix_ne_res_note k k hm.symm)]
      rw [dictInsert_fresh _ _ _ (hover (k, v) (by simp)),
        dictInsert_fresh _ _ _ hcid]
      rw [ih _ _ _ (n0 + 1)
        (fun a b ha hb => hginj a b (by simp only [List.length_cons] at ha ⊢; omega)
          (by simp only [List.length_cons] at hb ⊢; omega))
        hkeys.2 houtn.2.1
        (fun x hx => by
          rw [List.map_append, List.map_append]
          intro hmem
          rcases List.mem_append.mp hmem with hm | hm
          · rcases List.mem_append.mp hm with hm2 | hm2
            · exact hacc x (by simp [hx]) hm2
            · simp at hm2
              exact houtn.2.2 (by simp [hm2]) hx
          · simp at hm
            exact houtn.2.2 (by simp [hm]) hx)
        (fun kv hkv => by
          rw [List.map_append]
          intro hmem
          rcases List.mem_append.mp hmem with hm | hm
          · exact hover kv (by simp [hkv]) hm
          · simp at hm
            exact hkeys.1 (hm ▸ List.mem_map.mpr ⟨kv, hkv, rfl⟩))
        (fun n kx hn1 hn2 => by
          rw [List.map_append]
          intro hmem
          rcases List.mem_append.mp hmem with hm | hm
          · exact hstore n kx (by omega)
              (by simp only [List.length_cons] at hn2 ⊢; omega) hm
          · simp at hm
            have hg : gen n = gen n0 := cid_eq_counter aid gen hglen n n0 kx k hm
            have : n = n0 := hginj n n0
              (by simp only [List.length_cons] at hn2 ⊢; omega)
              (by simp only [List.length_cons]; omega) hg
            omega)]
      simp only [splitOutCb, hL, if_pos, hrec, List.filter_cons]
      simp [List.append_assoc]
    · rw [if_neg hL] at houtn hacc
      rw [List.nodup_append] at houtn
      rcases hrec : splitOutCb aid gen now rest n0 with ⟨out, ents, n'⟩
      have hstep : splitFields (some (overflowCallback aid gen now))
            ((k, v) :: rest) acc over (store0, n0) =
          splitFields (some (overflowCallback aid gen now)) rest
            (dictInsert acc k v) over (store0, n0) := by
        simp [splitFields, hL]
      rw [hstep, dictInsert_fresh _ _ _ (hacc k (by simp))]
      rw [ih _ _ _ n0
        (fun a b ha hb => hginj a b (by simp only [List.length_cons] at ha ⊢; omega)
          (by simp only [List.length_cons] at hb ⊢; omega))
        hkeys.2 houtn.2.1
        (fun x hx => by
          rw [List.map_append]
          intro hmem
          rcases List.mem_append.mp hmem with hm | hm
          · exact hacc x (by simp [hx]) hm
          · simp at hm
            exact houtn.2.2 (by simp [hm]) hx)
        (fun kv hkv => hover kv (by simp [hkv]))
        (fun n kx hn1 hn2 => hstore n kx hn1
          (by simp only [List.length_cons] at hn2 ⊢; omega))]
      simp only [splitOutCb, hL, hrec, List.filter_cons]
      simp [hL]

/-! ### Byte weights of the splitter's synthetic members -/

theorem escCharRaw_plain (c : Char) (h1 : 0x20 ≤ c.toNat) (h2 : ¬ c = '"')
    (h3 : ¬ c = '\\') : escCharRaw c = [c] := by
  have hs : escSpecial c = none := by
    rw [escSpecial, if_neg h2, if_neg h3, if_neg (by omega), if_neg (by omega),
      if_neg (by omega), if_neg (by omega), if_neg (by omega)]
  simp only [escCharRaw, hs]
  rw [if_neg (by omega)]

theorem bytesLen_plain (cs : List Char)
    (h : ∀ c ∈ cs, 0x20 ≤ c.toNat ∧ c.toNat < 0x80 ∧ ¬ c = '"' ∧ ¬ c = '\\') :
    bytesLen (cs.flatMap escCharRaw) = cs.length := by
  induction cs with
  | nil => rfl
  | cons c t ih =>
    rw [List.flatMap_cons, bytesLen_append]
    obtain ⟨h1, h2, h3, h4⟩ := h c (by simp)
    rw [escCharRaw_plain c h1 h3 h4, ih (fun a ha => h a (by simp [ha]))]
    have : bytesLen [c] = c.utf8Size := by simp [bytesLen]
    rw [this, utf8Size_ascii c h2, List.length_cons]
    omega

theorem est_pstr_plain (s : String)
    (h : ∀ c ∈ s.data, 0x20 ≤ c.toNat ∧ c.toNat < 0x80 ∧ ¬ c = '"' ∧ ¬ c = '\\') :
    estimate_json_size (pstr s) = s.length + 2 := by
  rw [est_pstr, bytesLen_plain s.data h]
  rfl

theorem digit_char_plain (c : Char) (h : c.isDigit = true) :
    0x20 ≤ c.toNat ∧ c.toNat < 0x80 ∧ ¬ c = '"' ∧ ¬ c = '\\' := by
  have h1 : 48 ≤ c.toNat ∧ c.toNat ≤ 57 := by
    simp [Char.isDigit] at h
    constructor
    · simpa [Char.le_def] using h.1
    · simpa [Char.le_def] using h.2
  refine ⟨by omega, by omega, ?_, ?_⟩
  · intro he
    subst he
    exact absurd h1 (by decide)
  · intro he
    subst he
    exact absurd h1 (by decide)

theorem est_digits (n : Nat) :
    estimate_json_size (pstr (String.mk (natDigits n))) = (natDigits n).length + 2 := by
  rw [est_pstr_plain _ (fun c hc => digit_char_plain c (natDigits_mem_digit n c hc))]
  rfl

theorem est_pint_ofNat (n : Nat) :
    estimate_json_size (pint (n : Int)) = (natDigits n).length := by
  have hser : serVal false (pint (n : Int)) = some (intRepr (n : Int)) := by
    simp [serVal]
  rw [est_serVal _ _ hser, intRepr, if_neg (by omega)]
  rw [show ((n : Int)).natAbs = n by simp]
  exact bytesLen_ascii _ (natDigits_ascii n)

theorem msum_cons (kv : String × PyVal) (ms : List (String × PyVal)) :
    msum (kv :: ms) = memberBytes kv + msum ms := by
  simp [msum]

theorem msum_append (a b : List (String × PyVal)) :
    msum (a ++ b) = msum a + msum b := by
  simp [msum]

theorem memberBytes_eq (k : String) (v : PyVal) :
    memberBytes (k, v) = estimate_json_size (pstr k) + estimate_json_size v + 2 := by
  simp only [memberBytes]
  have hser : serVal false (pstr k) = some (serStr false k) := by simp [serVal]
  have : bytesLen (serStr false k) = estimate_json_size (pstr k) :=
    (est_serVal _ _ hser).symm
  rw [this]
  omega

theorem is_large_est (k : String) (v : PyVal) (t : Nat)
    (h : is_large_field k v t = true) : t < estimate_json_size v := by
  rw [is_large_field] at h
  by_cases hp : large_field_patterns.any (fun p => containsSub p (k.data.map Char.toLower))
  · rw [if_pos hp] at h
    by_cases hn : isNone v
    · rw [if_pos hn] at h
      cases h
    · rw [if_neg hn] at h
      exact of_decide_eq_true h
  · rw [if_neg hp] at h
    cases h

theorem est_le_msum (data : List (String × PyVal)) (kv : String × PyVal)
    (h : kv ∈ data) : estimate_json_size kv.2 ≤ msum data := by
  have h1 : memberBytes kv ≤ msum data := by
    rw [msum]
    exact List.single_le_sum (fun _ _ => Nat.zero_le _) _
      (List.mem_map.mpr ⟨kv, h, rfl⟩)
  have h2 : estimate_json_size kv.2 ≤ memberBytes kv := by
    rw [memberBytes]
    omega
  omega

theorem serMembers_exists (a : Bool) (ms : List (String × PyVal))
    (h : ∀ kv ∈ ms, ∃ sv, serVal a kv.2 = some sv) :
    ∃ body, serMembers a ms = some body := by
  induction ms with
  | nil => exact ⟨[], by rw [serMembers]⟩
  | cons kv t ih =>
    obtain ⟨sv, hsv⟩ := h kv (by simp)
    rcases t with _ | ⟨r, rs⟩
    · exact ⟨serStr a kv.1 ++ ':' :: sv, by rw [serMembers, hsv]; rfl⟩
    · obtain ⟨sr, hsr⟩ := ih (fun x hx => h x (by simp [hx]))
      refine ⟨(serStr a kv.1 ++ ':' :: sv) ++ ',' :: sr, ?_⟩
      rw [serMembers]
      case x_1 => simp
      rw [hsv, bind_some_red, hsr, bind_some_red]
      rfl

theorem serItems_exists (a : Bool) (xs : List PyVal)
    (h : ∀ x ∈ xs, ∃ sv, serVal a x = some sv) :
    ∃ body, serItems a xs = some body := by
  induction xs with
  | nil => exact ⟨[], by rw [serItems]⟩
  | cons x t ih =>
    obtain ⟨sv, hsv⟩ := h x (by simp)
    rcases t with _ | ⟨r, rs⟩
    · exact ⟨sv, by rw [serItems]; exact hsv⟩
    · obtain ⟨sr, hsr⟩ := ih (fun y hy => h y (by simp [hy]))
      refine ⟨sv ++ ',' :: sr, ?_⟩
      rw [serItems]
      case x_1 => simp
      rw [hsv, bind_some_red, hsr, bind_some_red]
      rfl

theorem serItems_single_inv {a : Bool} (v : PyVal) (body : List Char)
    (h : serItems a [v] = some body) : serVal a v = some body := by
  rw [serItems] at h
  exact h

theorem serItems_cons_inv {a : Bool} (v r : PyVal) (rs : List PyVal)
    (body : List Char) (h : serItems a (v :: r :: rs) = some body) :
    ∃ sv sr, serVal a v = some sv ∧ serItems a (r :: rs) = some sr ∧
      body = sv ++ ',' :: sr := by
  rw [serItems] at h
  case x_1 => simp
  rcases hv : serVal a v with _ | sv
  · rw [hv] at h
    cases h
  · rw [hv, bind_some_red] at h
    rcases hsr : serItems a (r :: rs) with _ | sr
    · rw [hsr] at h
      cases h
    · rw [hsr, bind_some_red] at h
      exact ⟨sv, sr, rfl, rfl, (Option.some.inj h).symm⟩

theorem serItems_bytes (xs : List PyVal) (body : List Char)
    (h : serItems false xs = some body) (hne : xs ≠ []) :
    bytesLen body + 1 = isum xs := by
  induction xs generalizing body with
  | nil => exact absurd rfl hne
  | cons x t ih =>
    rcases t with _ | ⟨r, rs⟩
    · have hx := serItems_single_inv x body h
      rw [isum]
      simp only [List.map_cons, List.map_nil, List.sum_cons, List.sum_nil]
      rw [est_serVal x body hx]
      omega
    · obtain ⟨sv, sr, hsv, hsr, rfl⟩ := serItems_cons_inv x r rs body h
      have hrec := ih sr hsr (by simp)
      rw [bytesLen_append, bytesLen_cons]
      rw [isum] at hrec ⊢
      simp only [List.map_cons, List.sum_cons] at hrec ⊢
      rw [est_serVal x sv hsv]
      have h1 : (',' : Char).utf8Size = 1 := by decide
      omega

theorem est_plist_isum (xs : List PyVal) (body : List Char)
    (h : serItems false xs = some body) (hne : xs ≠ []) :
    estimate_json_size (plist xs) = isum xs + 1 := by
  have hser : serVal false (plist xs) = some ('[' :: body ++ [']']) := by
    rw [serVal, h]
    rfl
  rw [est_serVal _ _ hser]
  rw [show ('[' :: body ++ [']']) = ['['] ++ body ++ [']'] from rfl,
    bytesLen_append, bytesLen_append]
  have h1 : bytesLen ['['] = 1 := by decide
  have h2 : bytesLen [']'] = 1 := by decide
  have := serItems_bytes xs body h hne
  omega

theorem memberBytes_omitted (k : String) (n : Nat) (hn : n < 1000000000) :
    memberBytes (k ++ "_omitted", pstr (omittedNote n)) ≤
      estimate_json_size (pstr k) + 57 := by
  rw [memberBytes_eq, omittedNote]
  have h1 := est_pstr_append k "_omitted"
  have h2 : estimate_json_size (pstr ("_omitted" : String)) = 10 := by
    rw [est_pstr]
    decide
  have h4 := est_pstr_append
    ("Field omitted due to size (" ++ String.mk (natDigits n)) " bytes)"
  have h5 := est_pstr_append "Field omitted due to size (" (String.mk (natDigits n))
  have h6 : estimate_json_size (pstr ("Field omitted due to size (" : String)) = 29 := by
    rw [est_pstr]
    decide
  have h7 : estimate_json_size (pstr (" bytes)" : String)) = 9 := by
    rw [est_pstr]
    decide
  have h8 := est_digits n
  have hp : (10 : Nat) ^ 9 = 1000000000 := by norm_num
  have h9 : (natDigits n).length ≤ 9 :=
    natDigits_length_le 9 n (by omega) (by omega)
  omega

theorem memberBytes_cb_pair (aid k g : String)
    (hg : estimate_json_size (pstr g) = 10) :
    memberBytes (k ++ "_resource",
        pstr ("overflow://" ++ (aid ++ "_" ++ k ++ "_" ++ g))) +
      memberBytes (k ++ "_note",
        pstr (resourceNote ("overflow://" ++ (aid ++ "_" ++ k ++ "_" ++ g)))) =
      4 * estimate_json_size (pstr k) + 2 * estimate_json_size (pstr aid) + 107 := by
  rw [memberBytes_eq, memberBytes_eq, resourceNote]
  have h1 := est_pstr_append k "_resource"
  have h2 : estimate_json_size (pstr ("_resource" : String)) = 11 := by
    rw [est_pstr]
    decide
  have h3 := est_pstr_append k "_note"
  have h4 : estimate_json_size (pstr ("_note" : String)) = 7 := by
    rw [est_pstr]
    decide
  have h5 := est_pstr_append "overflow://" (aid ++ "_" ++ k ++ "_" ++ g)
  have h6 : estimate_json_size (pstr ("overflow://" : String)) = 13 := by
    rw [est_pstr]
    decide
  have h7 := est_pstr_append (aid ++ "_" ++ k ++ "_") g
  have h8 := est_pstr_append (aid ++ "_" ++ k) "_"
  have h9 := est_pstr_append (aid ++ "_") k
  have h10 := est_pstr_append aid "_"
  have h11 : estimate_json_size (pstr ("_" : String)) = 3 := by
    rw [est_pstr]
    decide
  have h12 := est_pstr_append "Data moved to resource due to size. Use "
    ("overflow://" ++ (aid ++ "_" ++ k ++ "_" ++ g))
  have h13 := est_pstr_append ("Data moved to resource due to size. Use " ++
    ("overflow://" ++ (aid ++ "_" ++ k ++ "_" ++ g))) " to access."
  have h14 : estimate_json_size
      (pstr ("Data moved to resource due to size. Use " : String)) = 42 := by
    rw [est_pstr]
    decide
  have h15 : estimate_json_size (pstr (" to access." : String)) = 13 := by
    rw [est_pstr]
    decide
  omega

theorem msum_splitOutNone_le (data : List (String × PyVal))
    (h : ∀ kv ∈ data, estimate_json_size kv.2 < 1000000000) :
    msum (splitOutNone data) +
      49000 * (data.filter (fun kv => is_large_field kv.1 kv.2 50000)).length ≤
      msum data := by
  induction data with
  | nil => simp [splitOutNone, msum]
  | cons kv rest ih =>
    have hih := ih (fun x hx => h x (by simp [hx]))
    have hnil : msum ([] : List (String × PyVal)) = 0 := rfl
    rw [splitOutNone_cons, msum_append, List.filter_cons]
    by_cases hL : is_large_field kv.1 kv.2 50000
    · rw [if_pos hL, if_pos hL, List.length_cons, msum_cons, msum_cons]
      have homit := memberBytes_omitted kv.1 (estimate_json_size kv.2)
        (h kv (by simp))
      have hbig := is_large_est kv.1 kv.2 50000 hL
      have hold : memberBytes kv =
          estimate_json_size (pstr kv.1) + estimate_json_size kv.2 + 2 := by
        rw [show kv = (kv.1, kv.2) from rfl, memberBytes_eq]
      omega
    · rw [if_neg hL, if_neg hL, msum_cons, msum_cons]
      omega

theorem msum_splitOutCb_le (aid : String) (gen : Nat → String) (now : Nat)
    (hg : ∀ n, estimate_json_size (pstr (gen n)) = 10)
    (hEa : estimate_json_size (pstr aid) ≤ 1000)
    (data : List (String × PyVal)) :
    ∀ n, (∀ kv ∈ data, estimate_json_size (pstr kv.1) ≤ 10000) →
    msum ((splitOutCb aid gen now data n).1) +
      17000 * (data.filter (fun kv => is_large_field kv.1 kv.2 50000)).length ≤
      msum data := by
  induction data with
  | nil => intro n _; simp [splitOutCb, msum]
  | cons kv rest ih =>
    intro n hEk
    rcases kv with ⟨k, v⟩
    by_cases hL : is_large_field k v 50000
    · rcases hrec : splitOutCb aid gen now rest (n + 1) with ⟨out, ents, n'⟩
      have hih := ih (n + 1) (fun x hx => hEk x (by simp [hx]))
      rw [hrec] at hih
      simp only at hih
      have hstep : (splitOutCb aid gen now ((k, v) :: rest) n).1 =
          (k ++ "_resource",
            pstr ("overflow://" ++ (aid ++ "_" ++ k ++ "_" ++ gen n))) ::
          (k ++ "_note",
            pstr (resourceNote ("overflow://" ++ (aid ++ "_" ++ k ++ "_" ++ gen n)))) ::
          out := by
        simp [splitOutCb, hL, hrec]
      rw [hstep, msum_cons, msum_cons]
      simp only [List.filter_cons]
      rw [if_pos hL, List.length_cons, msum_cons]
      have hpair := memberBytes_cb_pair aid k (gen n) (hg n)
      have hbig := is_large_est k v 50000 hL
      have hEkk := hEk (k, v) (by simp)
      have hold : memberBytes (k, v) =
          estimate_json_size (pstr k) + estimate_json_size v + 2 := memberBytes_eq k v
      simp only at hEkk
      omega
    · rcases hrec : splitOutCb aid gen now rest n with ⟨out, ents, n'⟩
      have hih := ih n (fun x hx => hEk x (by simp [hx]))
      rw [hrec] at hih
      simp only at hih
      have hstep : (splitOutCb aid gen now ((k, v) :: rest) n).1 = (k, v) :: out := by
        simp [splitOutCb, hL, hrec]
      rw [hstep, msum_cons]
      simp only [List.filter_cons]
      rw [if_neg hL, msum_cons]
      omega

theorem isum_map_pstr_le (ms : List (String × PyVal))
    (h : ∀ kv ∈ ms, estimate_json_size (pstr kv.1) ≤ 10000) :
    isum (ms.map (fun kv => pstr kv.1)) ≤ 10001 * ms.length := by
  induction ms with
  | nil => simp [isum]
  | cons kv t ih =>
    have h1 := h kv (by simp)
    have h2 := ih (fun x hx => h x (by simp [hx]))
    rw [isum] at h2 ⊢
    simp only [List.map_cons, List.sum_cons, List.length_cons]
    have : 10001 * (t.length + 1) = 10001 * t.length + 10001 := by ring
    omega

theorem splitOutNone_serializable (data : List (String × PyVal))
    (h : ∀ kv ∈ data, ∃ sv, serVal false kv.2 = some sv) :
    ∀ kv ∈ splitOutNone data, ∃ sv, serVal false kv.2 = some sv := by
  intro kv hkv
  rw [splitOutNone] at hkv
  obtain ⟨x, hx, hmem⟩ := List.mem_flatMap.mp hkv
  by_cases hL : is_large_field x.1 x.2 50000
  · rw [if_pos hL, List.mem_singleton] at hmem
    subst hmem
    exact ⟨serStr false (omittedNote (estimate_json_size x.2)), by simp [serVal]⟩
  · rw [if_neg hL, List.mem_singleton] at hmem
    subst hmem
    exact h _ hx

theorem splitOutCb_serializable (aid : String) (gen : Nat → String) (now : Nat)
    (data : List (String × PyVal))
    (h : ∀ kv ∈ data, ∃ sv, serVal false kv.2 = some sv) :
    ∀ n, ∀ kv ∈ (splitOutCb aid gen now data n).1,
      ∃ sv, serVal false kv.2 = some sv := by
  induction data with
  | nil =>
    intro n kv hkv
    simp [splitOutCb] at hkv
  | cons x rest ih =>
    intro n kv hkv
    rcases x with ⟨k, v⟩
    by_cases hL : is_large_field k v 50000
    · rcases hrec : splitOutCb aid gen now rest (n + 1) with ⟨out, ents, n'⟩
      have hihs := ih (fun y hy => h y (by simp [hy])) (n + 1)
      rw [hrec] at hihs
      simp only at hihs
      have hstep : (splitOutCb aid gen now ((k, v) :: rest) n).1 =
          (k ++ "_resource",
            pstr ("overflow://" ++ (aid ++ "_" ++ k ++ "_" ++ gen n))) ::
          (k ++ "_note",
            pstr (resourceNote ("overflow://" ++ (aid ++ "_" ++ k ++ "_" ++ gen n)))) ::
          out := by
        simp [splitOutCb, hL, hrec]
      rw [hstep] at hkv
      rcases List.mem_cons.mp hkv with rfl | hkv
      · exact ⟨serStr false ("overflow://" ++ (aid ++ "_" ++ k ++ "_" ++ gen n)),
          by simp [serVal]⟩
      rcases List.mem_cons.mp hkv with rfl | hkv
      · exact ⟨serStr false
          (resourceNote ("overflow://" ++ (aid ++ "_" ++ k ++ "_" ++ gen n))),
          by simp [serVal]⟩
      · exact hihs kv hkv
    · rcases hrec : splitOutCb aid gen now rest n with ⟨out, ents, n'⟩
      have hihs := ih (fun y hy => h y (by simp [hy])) n
      rw [hrec] at hihs
      simp only at hihs
      have hstep : (splitOutCb aid gen now ((k, v) :: rest) n).1 = (k, v) :: out := by
        simp [splitOutCb, hL, hrec]
      rw [hstep] at hkv
      rcases List.mem_cons.mp hkv with rfl | hkv
      · exact h (k, v) (by simp)
      · exact hihs kv hkv

theorem splitOutNone_ne_nil (data : List (String × PyVal)) (hne : data ≠ []) :
    splitOutNone data ≠ [] := by
  rcases data with _ | ⟨kv, rest⟩
  · exact absurd rfl hne
  · rw [splitOutNone_cons]
    by_cases hL : is_large_field kv.1 kv.2 50000 <;> simp [hL]

theorem splitOutCb_ne_nil (aid : String) (gen : Nat → String) (now n : Nat)
    (data : List (String × PyVal)) (hne : data ≠ []) :
    (splitOutCb aid gen now data n).1 ≠ [] := by
  rcases data with _ | ⟨⟨k, v⟩, rest⟩
  · exact absurd rfl hne
  · by_cases hL : is_large_field k v 50000
    · rcases hrec : splitOutCb aid gen now rest (n + 1) with ⟨out, ents, n'⟩
      simp [splitOutCb, hL, hrec]
    · rcases hrec : splitOutCb aid gen now rest n with ⟨out, ents, n'⟩
      simp [splitOutCb, hL, hrec]

theorem infoMember_bound (over : List (String × PyVal)) (S0 S1 : Nat)
    (hks : ∀ kv ∈ over, estimate_json_size (pstr kv.1) ≤ 10000)
    (hne : over ≠ [])
    (hS0 : S0 < 1000000000) (hS1 : S1 < 1000000000) :
    memberBytes ("_overflow_info", pdict
      [("fields_moved", plist (over.map (fun kv => pstr kv.1))),
       ("original_size_bytes", pint (S0 : Int)),
       ("reduced_size_bytes", pint (S1 : Int))]) ≤ 10001 * over.length + 120 := by
  obtain ⟨ibody, hitems⟩ := serItems_exists false (over.map (fun kv => pstr kv.1))
    (fun x hx => by
      obtain ⟨kv, _, rfl⟩ := List.mem_map.mp hx
      exact ⟨serStr false kv.1, by simp [serVal]⟩)
  have hmapne : over.map (fun kv => pstr kv.1) ≠ [] := by
    intro hm
    exact hne (List.map_eq_nil_iff.mp hm)
  have hplist : estimate_json_size (plist (over.map fun kv => pstr kv.1)) =
      isum (over.map fun kv => pstr kv.1) + 1 :=
    est_plist_isum _ ibody hitems hmapne
  obtain ⟨mbody, hmem⟩ := serMembers_exists false
    [("fields_moved", plist (over.map fun kv => pstr kv.1)),
     ("original_size_bytes", pint (S0 : Int)),
     ("reduced_size_bytes", pint (S1 : Int))]
    (by
      intro kv hkv
      rcases List.mem_cons.mp hkv with rfl | hkv
      · exact ⟨_, by rw [serVal, hitems]; rfl⟩
      rcases List.mem_cons.mp hkv with rfl | hkv
      · exact ⟨intRepr (S0 : Int), by simp [serVal]⟩
      rcases List.mem_cons.mp hkv with rfl | hkv
      · exact ⟨intRepr (S1 : Int), by simp [serVal]⟩
      · cases hkv)
  have hinfo : estimate_json_size (pdict
      [("fields_moved", plist (over.map fun kv => pstr kv.1)),
       ("original_size_bytes", pint (S0 : Int)),
       ("reduced_size_bytes", pint (S1 : Int))]) =
      msum [("fields_moved", plist (over.map fun kv => pstr kv.1)),
       ("original_size_bytes", pint (S0 : Int)),
       ("reduced_size_bytes", pint (S1 : Int))] + 1 :=
    est_pdict_msum _ mbody hmem (by simp)
  rw [memberBytes_eq, hinfo, msum_cons, msum_cons, msum_cons,
    memberBytes_eq, memberBytes_eq, memberBytes_eq]
  have hE1 : estimate_json_size (pstr ("_overflow_info" : String)) = 16 := by
    rw [est_pstr]
    decide
  have hE2 : estimate_json_size (pstr ("fields_moved" : String)) = 14 := by
    rw [est_pstr]
    decide
  have hE3 : estimate_json_size (pstr ("original_size_bytes" : String)) = 21 := by
    rw [est_pstr]
    decide
  have hE4 : estimate_json_size (pstr ("reduced_size_bytes" : String)) = 20 := by
    rw [est_pstr]
    decide
  have hp0 := est_pint_ofNat S0
  have hp1 := est_pint_ofNat S1
  have hpw : (10 : Nat) ^ 9 = 1000000000 := by norm_num
  have hd0 : (natDigits S0).length ≤ 9 := natDigits_length_le 9 S0 (by omega) (by omega)
  have hd1 : (natDigits S1).length ≤ 9 := natDigits_length_le 9 S1 (by omega) (by omega)
  have hisum := isum_map_pstr_le over hks
  have hlen : (over.map fun kv => pstr kv.1).length = over.length := by simp
  have hnil : msum ([] : List (String × PyVal)) = 0 := rfl
  rw [hplist]
  omega

/-- `split_large_response` with no callback, past the size gate: the closed
form of the output — each large field collapsed to its `_omitted` note, the
other fields untouched, and the `_overflow_info` metadata appended — with the
threaded state returned unchanged. -/
theorem split_none_closed {σ : Type} (data : List (String × PyVal))
    (max_size_bytes : Nat) (st : σ)
    (hgate : max_size_bytes < estimate_json_size (pdict data))
    (hkeys : (data.map Prod.fst).Nodup)
    (houtn : (outKeysNone data).Nodup)
    (hinfo : ¬ "_overflow_info" ∈ outKeysNone data)
    (hlarge : ∃ kv ∈ data, is_large_field kv.1 kv.2 50000 = true) :
    split_large_response data max_size_bytes
        (none : Option (String → PyVal → σ → String × σ)) st =
      (splitOutNone data ++ [("_overflow_info", pdict
        [("fields_moved",
          plist ((data.filter (fun kv => is_large_field kv.1 kv.2 50000)).map
            (fun kv => pstr kv.1))),
         ("original_size_bytes", pint (estimate_json_size (pdict data) : Int)),
         ("reduced_size_bytes",
          pint (estimate_json_size (pdict (splitOutNone data)) : Int))])], st) := by
  obtain ⟨kv0, hkv0, hL0⟩ := hlarge
  have hne : data.filter (fun kv => is_large_field kv.1 kv.2 50000) ≠ [] := by
    intro hnil2
    have : kv0 ∈ data.filter (fun kv => is_large_field kv.1 kv.2 50000) :=
      List.mem_filter.mpr ⟨hkv0, hL0⟩
    rw [hnil2] at this
    cases this
  have hie : (data.filter (fun kv => is_large_field kv.1 kv.2 50000)).isEmpty
      = false := by
    rcases hfl : data.filter (fun kv => is_large_field kv.1 kv.2 50000) with _ | ⟨a, b⟩
    · exact absurd hfl hne
    · rw [hfl]
      rfl
  rw [split_large_response, if_neg (by omega)]
  rw [splitFields_none_eq data [] [] st hkeys houtn (by simp) (by simp)]
  simp only [List.nil_append, hie, Bool.false_eq_true, if_false]
  rw [dictInsert_fresh _ _ _ (by rw [splitOutNone_keys]; exact hinfo)]

/-- `split_large_response` with the server's overflow callback, past the size
gate: the closed form of the output — each large field replaced by its
`_resource`/`_note` pair, the `_overflow_info` metadata appended — together
with the store extended by exactly the generated entries and the advanced
uuid counter. -/
theorem split_cb_closed (data : List (String × PyVal)) (max_size_bytes : Nat)
    (aid : String) (gen : Nat → String) (now n0 : Nat) (store0 : OverflowStore)
    (hglen : ∀ n, (gen n).length = 8)
    (hginj : ∀ a b, a < n0 + data.length → b < n0 + data.length →
      gen a = gen b → a = b)
    (hstore : ∀ n k, n0 ≤ n → n < n0 + data.length →
      ¬ (aid ++ "_" ++ k ++ "_" ++ gen n) ∈ store0.map Prod.fst)
    (hgate : max_size_bytes < estimate_json_size (pdict data))
    (hkeys : (data.map Prod.fst).Nodup)
    (houtc : (outKeysCb data).Nodup)
    (hinfo : ¬ "_overflow_info" ∈ outKeysCb data)
    (hlarge : ∃ kv ∈ data, is_large_field kv.1 kv.2 50000 = true) :
    split_large_response data max_size_bytes
        (some (overflowCallback aid gen now)) (store0, n0) =
      ((splitOutCb aid gen now data n0).1 ++ [("_overflow_info", pdict
        [("fields_moved",
          plist ((data.filter (fun kv => is_large_field kv.1 kv.2 50000)).map
            (fun kv => pstr kv.1))),
         ("original_size_bytes", pint (estimate_json_size (pdict data) : Int)),
         ("reduced_size_bytes",
          pint (estimate_json_size (pdict (splitOutCb aid gen now data n0).1) : Int))])],
       (store0 ++ (splitOutCb aid gen now data n0).2.1,
        (splitOutCb aid gen now data n0).2.2)) := by
  obtain ⟨kv0, hkv0, hL0⟩ := hlarge
  have hne : data.filter (fun kv => is_large_field kv.1 kv.2 50000) ≠ [] := by
    intro hnil2
    have : kv0 ∈ data.filter (fun kv => is_large_field kv.1 kv.2 50000) :=
      List.mem_filter.mpr ⟨hkv0, hL0⟩
    rw [hnil2] at this
    cases this
  have hie : (data.filter (fun kv => is_large_field kv.1 kv.2 50000)).isEmpty
      = false := by
    rcases hfl : data.filter (fun kv => is_large_field kv.1 kv.2 50000) with _ | ⟨a, b⟩
    · exact absurd hfl hne
    · rw [hfl]
      rfl
  rw [split_large_response, if_neg (by omega)]
  rw [splitFields_cb_eq aid gen now hglen data [] [] store0 n0 hginj hkeys houtc
    (by simp) (by simp) hstore]
  simp only [List.nil_append, hie, Bool.false_eq_true, if_false]
  rw [dictInsert_fresh _ _ _ (by rw [splitOutCb_keys]; exact hinfo)]

theorem outKeysNone_mem (data : List (String × PyVal)) (x : String)
    (hx : x ∈ outKeysNone data) :
    (∃ kv ∈ data, is_large_field kv.1 kv.2 50000 = true ∧ x = kv.1 ++ "_omitted") ∨
      x ∈ data.map Prod.fst := by
  rw [outKeysNone] at hx
  obtain ⟨kv, hkv, hm⟩ := List.mem_flatMap.mp hx
  by_cases hL : is_large_field kv.1 kv.2 50000
  · rw [if_pos hL, List.mem_singleton] at hm
    exact Or.inl ⟨kv, hkv, hL, hm⟩
  · rw [if_neg hL, List.mem_singleton] at hm
    exact Or.inr (hm ▸ List.mem_map.mpr ⟨kv, hkv, rfl⟩)

theorem outKeysCb_mem (data : List (String × PyVal)) (x : String)
    (hx : x ∈ outKeysCb data) :
    (∃ kv ∈ data, is_large_field kv.1 kv.2 50000 = true ∧
      (x = kv.1 ++ "_resource" ∨ x = kv.1 ++ "_note")) ∨
      x ∈ data.map Prod.fst := by
  rw [outKeysCb] at hx
  obtain ⟨kv, hkv, hm⟩ := List.mem_flatMap.mp hx
  by_cases hL : is_large_field kv.1 kv.2 50000
  · rw [if_pos hL] at hm
    rcases List.mem_cons.mp hm with rfl | hm
    · exact Or.inl ⟨kv, hkv, hL, Or.inl rfl⟩
    · rw [List.mem_singleton] at hm
      exact Or.inl ⟨kv, hkv, hL, Or.inr hm⟩
  · rw [if_neg hL, List.mem_singleton] at hm
    exact Or.inr (hm ▸ List.mem_map.mpr ⟨kv, hkv, rfl⟩)

theorem info_serializable (over : List (String × PyVal)) (S0 S1 : Nat) :
    ∃ sv, serVal false (pdict
      [("fields_moved", plist (over.map (fun kv => pstr kv.1))),
       ("original_size_bytes", pint (S0 : Int)),
       ("reduced_size_bytes", pint (S1 : Int))]) = some sv := by
  obtain ⟨ibody, hitems⟩ := serItems_exists false (over.map (fun kv => pstr kv.1))
    (fun x hx => by
      obtain ⟨kv, _, rfl⟩ := List.mem_map.mp hx
      exact ⟨serStr false kv.1, by simp [serVal]⟩)
  obtain ⟨mbody, hmem⟩ := serMembers_exists false
    [("fields_moved", plist (over.map fun kv => pstr kv.1)),
     ("original_size_bytes", pint (S0 : Int)),
     ("reduced_size_bytes", pint (S1 : Int))]
    (by
      intro kv hkv
      rcases List.mem_cons.mp hkv with rfl | hkv
      · exact ⟨_, by rw [serVal, hitems]; rfl⟩
      rcases List.mem_cons.mp hkv with rfl | hkv
      · exact ⟨intRepr (S0 : Int), by simp [serVal]⟩
      rcases List.mem_cons.mp hkv with rfl | hkv
      · exact ⟨intRepr (S1 : Int), by simp [serVal]⟩
      · cases hkv)
  exact ⟨'{' :: mbody ++ ['}'], by rw [serVal, hmem]; rfl⟩

theorem est_pdict_of_serializable (ms : List (String × PyVal)) (hne : ms ≠ [])
    (h : ∀ kv ∈ ms, ∃ sv, serVal false kv.2 = some sv) :
    estimate_json_size (pdict ms) = msum ms + 1 := by
  obtain ⟨body, hbody⟩ := serMembers_exists false ms h
  exact est_pdict_msum ms body hbody hne

theorem members_serializable_of_est_pos (data : List (String × PyVal))
    (h : 0 < estimate_json_size (pdict data)) :
    ∀ kv ∈ data, ∃ sv, serVal false kv.2 = some sv := by
  obtain ⟨cs, hcs⟩ := est_pos_some _ h
  obtain ⟨body, hbody, _⟩ := serVal_pdict_inv data cs hcs
  exact serMembers_false_some_inv data body hbody

/-- C8: when `split_large_response` diverts a qualifying field while no
resource callback is supplied, the field's payload is discarded entirely: the
threaded state (and hence any overflow store behind it) is returned unchanged
— no store write occurs — and for collision-free keys the output maps
`{key}_omitted` to the single string note reporting the payload's estimated
byte size while containing neither a `{key}_resource` nor a `{key}_note`
key. -/
theorem c8_no_callback_discards {σ : Type} (data : List (String × PyVal))
    (max_size_bytes : Nat) (st : σ) (k : String) (v : PyVal)
    (hgate : max_size_bytes < estimate_json_size (pdict data))
    (hkeys : (data.map Prod.fst).Nodup)
    (houtn : (outKeysNone data).Nodup)
    (hinfo : ¬ "_overflow_info" ∈ outKeysNone data)
    (hmem : (k, v) ∈ data)
    (hL : is_large_field k v 50000 = true)
    (hres : ¬ (k ++ "_resource") ∈ data.map Prod.fst)
    (hnote : ¬ (k ++ "_note") ∈ data.map Prod.fst) :
    (split_large_response data max_size_bytes
        (none : Option (String → PyVal → σ → String × σ)) st).2 = st ∧
    dictGet (split_large_response data max_size_bytes
        (none : Option (String → PyVal → σ → String × σ)) st).1
      (k ++ "_omitted") = some (pstr (omittedNote (estimate_json_size v))) ∧
    dictGet (split_large_response data max_size_bytes
        (none : Option (String → PyVal → σ → String × σ)) st).1
      (k ++ "_resource") = none ∧
    dictGet (split_large_response data max_size_bytes
        (none : Option (String → PyVal → σ → String × σ)) st).1
      (k ++ "_note") = none := by
  rw [split_none_closed data max_size_bytes st hgate hkeys houtn hinfo
    ⟨(k, v), hmem, hL⟩]
  refine ⟨rfl, ?_, ?_, ?_⟩
  · apply dictGet_append_left
    apply dictGet_of_mem_nodup
    · rw [splitOutNone_keys]
      exact houtn
    · rw [splitOutNone]
      refine List.mem_flatMap.mpr ⟨(k, v), hmem, ?_⟩
      rw [if_pos hL]
      simp
  · apply dictGet_eq_none
    rw [List.map_append]
    intro hm
    rcases List.mem_append.mp hm with hm | hm
    · rw [splitOutNone_keys] at hm
      rcases outKeysNone_mem data _ hm with ⟨kv, _, _, heq⟩ | hm
      · exact suffix_ne_res_omit k kv.1 heq
      · exact hres hm
    · simp at hm
      exact suffix_ne_res_info k hm
  · apply dictGet_eq_none
    rw [List.map_append]
    intro hm
    rcases List.mem_append.mp hm with hm | hm
    · rw [splitOutNone_keys] at hm
      rcases outKeysNone_mem data _ hm with ⟨kv, _, _, heq⟩ | hm
      · exact suffix_ne_note_omit k kv.1 heq
      · exact hnote hm
    · simp at hm
      exact suffix_ne_note_info k hm

/-- C6: when `split_large_response` runs with the server's overflow callback
past the size gate (with collision-free keys, an injective 8-character uuid
supply, and cache ids fresh for the store), the output is exactly the closed
form in which each qualifying field's key is omitted and replaced by the
`{key}_resource` `overflow://` reference and the `{key}_note` explanation
while non-qualifying fields pass through unchanged, and the `_overflow_info`
metadata (moved field names, before/after byte sizes) is appended; the store
gains exactly one entry per qualifying field, the uuid counter advances by
that count, and each stored entry is addressable: looking its cache id up at
the current time returns the diverted payload. -/
theorem c6_callback_diverts (data : List (String × PyVal)) (max_size_bytes : Nat)
    (aid : String) (gen : Nat → String) (now n0 : Nat) (store0 : OverflowStore)
    (hglen : ∀ n, (gen n).length = 8)
    (hginj : ∀ a b, a < n0 + data.length → b < n0 + data.length →
      gen a = gen b → a = b)
    (hstore : ∀ n k, n0 ≤ n → n < n0 + data.length →
      ¬ (aid ++ "_" ++ k ++ "_" ++ gen n) ∈ store0.map Prod.fst)
    (hgate : max_size_bytes < estimate_json_size (pdict data))
    (hkeys : (data.map Prod.fst).Nodup)
    (houtc : (outKeysCb data).Nodup)
    (hinfo : ¬ "_overflow_info" ∈ outKeysCb data)
    (hlarge : ∃ kv ∈ data, is_large_field kv.1 kv.2 50000 = true) :
    split_large_response data max_size_bytes
        (some (overflowCallback aid gen now)) (store0, n0) =
      ((splitOutCb aid gen now data n0).1 ++ [("_overflow_info", pdict
        [("fields_moved",
          plist ((data.filter (fun kv => is_large_field kv.1 kv.2 50000)).map
            (fun kv => pstr kv.1))),
         ("original_size_bytes", pint (estimate_json_size (pdict data) : Int)),
         ("reduced_size_bytes",
          pint (estimate_json_size (pdict (splitOutCb aid gen now data n0).1) : Int))])],
       (store0 ++ (splitOutCb aid gen now data n0).2.1,
        (splitOutCb aid gen now data n0).2.2)) ∧
    (splitOutCb aid gen now data n0).2.1.length =
      (data.filter (fun kv => is_large_field kv.1 kv.2 50000)).length ∧
    (splitOutCb aid gen now data n0).2.2 =
      n0 + (data.filter (fun kv => is_large_field kv.1 kv.2 50000)).length ∧
    ∀ e ∈ (splitOutCb aid gen now data n0).2.1,
      cacheGet (store0 ++ (splitOutCb aid gen now data n0).2.1) e.1 now =
        (some e.2.data, store0 ++ (splitOutCb aid gen now data n0).2.1) := by
  refine ⟨split_cb_closed data max_size_bytes aid gen now n0 store0 hglen hginj
      hstore hgate hkeys houtc hinfo hlarge,
    splitOutCb_ents_length aid gen now data n0,
    splitOutCb_counter aid gen now data n0, ?_⟩
  intro e he
  obtain ⟨⟨m, k', hm1, hm2, hcid⟩, hexp⟩ :=
    splitOutCb_ents_shape aid gen now data n0 e he
  have hnodup := splitOutCb_ents_nodup aid gen now hglen data n0 hginj
  have hget : dictGet (store0 ++ (splitOutCb aid gen now data n0).2.1) e.1 =
      some e.2 := by
    rw [dictGet_append_right]
    · exact dictGet_of_mem_nodup _ hnodup e.1 e.2 (by simpa using he)
    · rw [hcid]
      exact hstore m k' hm1 hm2
  simp only [cacheGet, hget]
  rw [if_neg (by omega)]

theorem est_replicate_a (n : Nat) :
    estimate_json_size (pstr (String.mk (List.replicate n 'a'))) = n + 2 := by
  have h : ∀ c ∈ (String.mk (List.replicate n 'a')).data,
      0x20 ≤ c.toNat ∧ c.toNat < 0x80 ∧ ¬ c = '"' ∧ ¬ c = '\\' := by
    intro c hc
    have hca : c = 'a' := List.eq_of_mem_replicate hc
    subst hca
    exact ⟨by decide, by decide, by decide, by decide⟩
  rw [est_pstr_plain _ h]
  show (List.replicate n 'a').length + 2 = n + 2
  rw [List.length_replicate]

theorem raw_d_is_large (n : Nat) (hn : 50001 ≤ n) : is_large_field "raw_d"
    (pstr (String.mk (List.replicate n 'a'))) 50000 = true := by
  rw [is_large_field, if_pos (by decide), if_neg (by simp [isNone])]
  rw [est_replicate_a n]
  simp only [decide_eq_true_eq]
  omega

theorem est_pdict_raw_d (n : Nat) : estimate_json_size
    (pdict [("raw_d", pstr (String.mk (List.replicate n 'a')))]) = n + 12 := by
  rw [est_pdict_of_serializable _ (by intro h; cases h)
    (fun kv hkv => by
      rw [List.mem_singleton] at hkv
      subst hkv
      exact ⟨serStr false (String.mk (List.replicate n 'a')), by simp [serVal]⟩)]
  rw [msum_cons, memberBytes_eq]
  have h1 : estimate_json_size (pstr ("raw_d" : String)) = 7 := by
    rw [est_pstr]
    decide
  rw [h1, est_replicate_a n]
  have : msum ([] : List (String × PyVal)) = 0 := rfl
  omega

/-- C2 counterexample: a response whose only field is diversion-eligible
(`raw_d`, 50001 bytes of payload, well over the 50 KB threshold), but whose
total estimated size is within `max_size_bytes`: the gate
`current_size <= max_size_bytes` returns the data unchanged, so the output's
estimated size is not strictly smaller than the input's, contradicting the
claim. -/
theorem c2_counterexample :
    ∃ data : List (String × PyVal), ∃ max_size_bytes : Nat,
      (∃ kv ∈ data, is_large_field kv.1 kv.2 50000 = true) ∧
      ¬ estimate_json_size (pdict
          (split_large_response data max_size_bytes
            (none : Option (String → PyVal → Unit → String × Unit)) ()).1) <
        estimate_json_size (pdict data) := by
  refine ⟨[("raw_d", pstr (String.mk (List.replicate 50001 'a')))], 1000000000,
    ⟨("raw_d", pstr (String.mk (List.replicate 50001 'a'))), List.mem_singleton.mpr rfl,
      raw_d_is_large 50001 (le_refl _)⟩, ?_⟩
  have hD := est_pdict_raw_d 50001
  have hsplit : split_large_response
      [("raw_d", pstr (String.mk (List.replicate 50001 'a')))] 1000000000
      (none : Option (String → PyVal → Unit → String × Unit)) () =
      ([("raw_d", pstr (String.mk (List.replicate 50001 'a')))], ()) := by
    rw [split_large_response, if_pos (by omega)]
  rw [hsplit]
  exact lt_irrefl _

/-- C2 (amended): once past the size gate (`estimated size > max_size_bytes`,
which the code requires before doing any splitting), and for collision-free
inputs whose serialized keys are at most 10 KB, total size below 10^9 bytes,
and whose callback is either absent or the server's overflow callback with an
injective 8-character uuid supply and fresh cache ids, a response containing
at least one diversion-eligible field is reduced: the estimated JSON size of
the returned map is strictly less than that of the input. -/
theorem c2_size_decrease_amended
    (data : List (String × PyVal)) (max_size_bytes : Nat)
    (aid : String) (gen : Nat → String) (now n0 : Nat) (store0 : OverflowStore)
    (cb : Option (String → PyVal → OverflowStore × Nat →
      String × (OverflowStore × Nat)))
    (hcb : (cb = none ∧ (outKeysNone data).Nodup ∧
        ¬ "_overflow_info" ∈ outKeysNone data) ∨
      (cb = some (overflowCallback aid gen now) ∧ (outKeysCb data).Nodup ∧
        ¬ "_overflow_info" ∈ outKeysCb data ∧ (∀ n, (gen n).length = 8) ∧
        (∀ n, estimate_json_size (pstr (gen n)) = 10) ∧
        (∀ a b, a < n0 + data.length → b < n0 + data.length →
          gen a = gen b → a = b) ∧
        (∀ n k, n0 ≤ n → n < n0 + data.length →
          ¬ (aid ++ "_" ++ k ++ "_" ++ gen n) ∈ store0.map Prod.fst) ∧
        estimate_json_size (pstr aid) ≤ 1000))
    (hkeys : (data.map Prod.fst).Nodup)
    (hEk : ∀ kv ∈ data, estimate_json_size (pstr kv.1) ≤ 10000)
    (hS : estimate_json_size (pdict data) < 1000000000)
    (hgate : max_size_bytes < estimate_json_size (pdict data))
    (hlarge : ∃ kv ∈ data, is_large_field kv.1 kv.2 50000 = true) :
    estimate_json_size (pdict
      (split_large_response data max_size_bytes cb (store0, n0)).1) <
      estimate_json_size (pdict data) := by
  obtain ⟨kv0, hkv0, hL0⟩ := hlarge
  have hdne : data ≠ [] := by
    intro h
    rw [h] at hkv0
    cases hkv0
  have hne : data.filter (fun kv => is_large_field kv.1 kv.2 50000) ≠ [] := by
    intro hnil2
    have : kv0 ∈ data.filter (fun kv => is_large_field kv.1 kv.2 50000) :=
      List.mem_filter.mpr ⟨hkv0, hL0⟩
    rw [hnil2] at this
    cases this
  have hLpos : 0 < (data.filter (fun kv => is_large_field kv.1 kv.2 50000)).length :=
    List.length_pos.mpr hne
  have hser := members_serializable_of_est_pos data (by omega)
  have hdata_msum : estimate_json_size (pdict data) = msum data + 1 :=
    est_pdict_of_serializable data hdne hser
  have hkfil : ∀ kv ∈ data.filter (fun kv => is_large_field kv.1 kv.2 50000),
      estimate_json_size (pstr kv.1) ≤ 10000 :=
    fun kv hkv => hEk kv (List.mem_filter.mp hkv).1
  rcases hcb with ⟨rfl, houtn, hinfo⟩ |
    ⟨rfl, houtc, hinfo, hglen, hgE, hginj, hstore, hEa⟩
  · rw [split_none_closed data max_size_bytes (store0, n0) hgate hkeys houtn hinfo
      ⟨kv0, hkv0, hL0⟩]
    have hsn_ser := splitOutNone_serializable data hser
    have hsn_ne := splitOutNone_ne_nil data hdne
    have hsn_msum : estimate_json_size (pdict (splitOutNone data)) =
        msum (splitOutNone data) + 1 :=
      est_pdict_of_serializable _ hsn_ne hsn_ser
    have hdec := msum_splitOutNone_le data
      (fun kv hkv => by
        have := est_le_msum data kv hkv
        omega)
    have hbound := infoMember_bound
      (data.filter (fun kv => is_large_field kv.1 kv.2 50000))
      (estimate_json_size (pdict data))
      (estimate_json_size (pdict (splitOutNone data)))
      hkfil hne hS (by omega)
    have hfin : estimate_json_size (pdict (splitOutNone data ++
        [("_overflow_info", pdict
          [("fields_moved",
            plist ((data.filter (fun kv => is_large_field kv.1 kv.2 50000)).map
              (fun kv => pstr kv.1))),
           ("original_size_bytes", pint (estimate_json_size (pdict data) : Int)),
           ("reduced_size_bytes",
            pint (estimate_json_size (pdict (splitOutNone data)) : Int))])])) =
        msum (splitOutNone data) +
          memberBytes ("_overflow_info", pdict
          [("fields_moved",
            plist ((data.filter (fun kv => is_large_field kv.1 kv.2 50000)).map
              (fun kv => pstr kv.1))),
           ("original_size_bytes", pint (estimate_json_size (pdict data) : Int)),
           ("reduced_size_bytes",
            pint (estimate_json_size (pdict (splitOutNone data)) : Int))]) + 1 := by
      rw [est_pdict_of_serializable _ (by simp)
        (fun kv hkv => by
          rcases List.mem_append.mp hkv with hm | hm
          · exact hsn_ser kv hm
          · rw [List.mem_singleton] at hm
            subst hm
            exact info_serializable _ _ _)]
      rw [msum_append, msum_cons]
      have : msum ([] : List (String × PyVal)) = 0 := rfl
      omega
    rw [hfin]
    omega
  · rw [split_cb_closed data max_size_bytes aid gen now n0 store0 hglen hginj
      hstore hgate hkeys houtc hinfo ⟨kv0, hkv0, hL0⟩]
    have hsc_ser := splitOutCb_serializable aid gen now data hser n0
    have hsc_ne := splitOutCb_ne_nil aid gen now n0 data hdne
    have hsc_msum : estimate_json_size (pdict (splitOutCb aid gen now data n0).1) =
        msum (splitOutCb aid gen now data n0).1 + 1 :=
      est_pdict_of_serializable _ hsc_ne hsc_ser
    have hdec := msum_splitOutCb_le aid gen now hgE hEa data n0 hEk
    have hbound := infoMember_bound
      (data.filter (fun kv => is_large_field kv.1 kv.2 50000))
      (estimate_json_size (pdict data))
      (estimate_json_size (pdict (splitOutCb aid gen now data n0).1))
      hkfil hne hS (by omega)
    have hfin : estimate_json_size (pdict ((splitOutCb aid gen now data n0).1 ++
        [("_overflow_info", pdict
          [("fields_moved",
            plist ((data.filter (fun kv => is_large_field kv.1 kv.2 50000)).map
              (fun kv => pstr kv.1))),
           ("original_size_bytes", pint (estimate_json_size (pdict data) : Int)),
           ("reduced_size_bytes",
            pint (estimate_json_size
              (pdict (splitOutCb aid gen now data n0).1) : Int))])])) =
        msum (splitOutCb aid gen now data n0).1 +
          memberBytes ("_overflow_info", pdict
          [("fields_moved",
            plist ((data.filter (fun kv => is_large_field kv.1 kv.2 50000)).map
              (fun kv => pstr kv.1))),
           ("original_size_bytes", pint (estimate_json_size (pdict data) : Int)),
           ("reduced_size_bytes",
            pint (estimate_json_size
              (pdict (splitOutCb aid gen now data n0).1) : Int))]) + 1 := by
      rw [est_pdict_of_serializable _ (by simp)
        (fun kv hkv => by
          rcases List.mem_append.mp hkv with hm | hm
          · exact hsc_ser kv hm
          · rw [List.mem_singleton] at hm
            subst hm
            exact info_serializable _ _ _)]
      rw [msum_append, msum_cons]
      have : msum ([] : List (String × PyVal)) = 0 := rfl
      omega
    rw [hfin]
    omega

/-- C8 witness: splitting {"raw_d": 50001 bytes} at max 50000 with no
callback leaves the unit state unchanged, emits the single `raw_d_omitted`
note, and emits no `raw_d_resource` or `raw_d_note` key. -/
theorem c8_witness :
    (split_large_response [("raw_d", pstr (String.mk (List.replicate 50001 'a')))] 50000
        (none : Option (String → PyVal → Unit → String × Unit)) ()).2 = () ∧
    dictGet (split_large_response [("raw_d", pstr (String.mk (List.replicate 50001 'a')))] 50000
        (none : Option (String → PyVal → Unit → String × Unit)) ()).1
      ("raw_d" ++ "_omitted") =
      some (pstr (omittedNote (estimate_json_size
        (pstr (String.mk (List.replicate 50001 'a')))))) ∧
    dictGet (split_large_response [("raw_d", pstr (String.mk (List.replicate 50001 'a')))] 50000
        (none : Option (String → PyVal → Unit → String × Unit)) ()).1
      ("raw_d" ++ "_resource") = none ∧
    dictGet (split_large_response [("raw_d", pstr (String.mk (List.replicate 50001 'a')))] 50000
        (none : Option (String → PyVal → Unit → String × Unit)) ()).1
      ("raw_d" ++ "_note") = none := by
  have hL := raw_d_is_large 50001 (le_refl _)
  have houtk : outKeysNone [("raw_d", pstr (String.mk (List.replicate 50001 'a')))] = ["raw_d" ++ "_omitted"] := by
    rw [outKeysNone_cons, if_pos hL]
    rfl
  have hD := est_pdict_raw_d 50001
  exact c8_no_callback_discards [("raw_d", pstr (String.mk (List.replicate 50001 'a')))] 50000 () "raw_d"
    (pstr (String.mk (List.replicate 50001 'a')))
    (by omega)
    (by simp)
    (by rw [houtk]; exact List.nodup_singleton _)
    (by rw [houtk]; decide)
    (List.mem_singleton.mpr rfl)
    hL
    (by decide)
    (by decide)

/-- C6 witness: splitting {"raw_d": 50001 bytes} at max 50000 with the
overflow callback for activity "42", uuid supply `abcdef12` and current time
7 produces exactly the closed-form output, one store entry, counter 1, and an
addressable entry. -/
theorem c6_witness :
    split_large_response [("raw_d", pstr (String.mk (List.replicate 50001 'a')))] 50000
        (some (overflowCallback "42" (fun _ => "abcdef12") 7)) ([], 0) =
      ((splitOutCb "42" (fun _ => "abcdef12") 7
      [("raw_d", pstr (String.mk (List.replicate 50001 'a')))] 0).1 ++ [("_overflow_info", pdict
        [("fields_moved",
          plist ((([("raw_d", pstr (String.mk (List.replicate 50001 'a')))]).filter (fun kv => is_large_field kv.1 kv.2 50000)).map
            (fun kv => pstr kv.1))),
         ("original_size_bytes",
          pint (estimate_json_size (pdict [("raw_d", pstr (String.mk (List.replicate 50001 'a')))]) : Int)),
         ("reduced_size_bytes",
          pint (estimate_json_size (pdict (splitOutCb "42" (fun _ => "abcdef12") 7
      [("raw_d", pstr (String.mk (List.replicate 50001 'a')))] 0).1) : Int))])],
       ([] ++ (splitOutCb "42" (fun _ => "abcdef12") 7
      [("raw_d", pstr (String.mk (List.replicate 50001 'a')))] 0).2.1,
        (splitOutCb "42" (fun _ => "abcdef12") 7
      [("raw_d", pstr (String.mk (List.replicate 50001 'a')))] 0).2.2)) ∧
    (splitOutCb "42" (fun _ => "abcdef12") 7
      [("raw_d", pstr (String.mk (List.replicate 50001 'a')))] 0).2.1.length =
      (([("raw_d", pstr (String.mk (List.replicate 50001 'a')))]).filter (fun kv => is_large_field kv.1 kv.2 50000)).length ∧
    (splitOutCb "42" (fun _ => "abcdef12") 7
      [("raw_d", pstr (String.mk (List.replicate 50001 'a')))] 0).2.2 =
      0 + (([("raw_d", pstr (String.mk (List.replicate 50001 'a')))]).filter (fun kv => is_large_field kv.1 kv.2 50000)).length ∧
    ∀ e ∈ (splitOutCb "42" (fun _ => "abcdef12") 7
      [("raw_d", pstr (String.mk (List.replicate 50001 'a')))] 0).2.1,
      cacheGet ([] ++ (splitOutCb "42" (fun _ => "abcdef12") 7
      [("raw_d", pstr (String.mk (List.replicate 50001 'a')))] 0).2.1) e.1 7 =
        (some e.2.data, [] ++ (splitOutCb "42" (fun _ => "abcdef12") 7
      [("raw_d", pstr (String.mk (List.replicate 50001 'a')))] 0).2.1) := by
  have hL := raw_d_is_large 50001 (le_refl _)
  have houtk : outKeysCb [("raw_d", pstr (String.mk (List.replicate 50001 'a')))] = ["raw_d" ++ "_resource", "raw_d" ++ "_note"] := by
    rw [outKeysCb_cons, if_pos hL]
    rfl
  have hD := est_pdict_raw_d 50001
  exact c6_callback_diverts [("raw_d", pstr (String.mk (List.replicate 50001 'a')))] 50000 "42" (fun _ => "abcdef12") 7 0 []
    (fun _ => by
      show ("abcdef12" : String).length = 8
      decide)
    (fun a b ha hb _ => by
      simp at ha hb
      omega)
    (fun n k _ _ h => by simp at h)
    (by omega)
    (by simp)
    (by rw [houtk]; decide)
    (by rw [houtk]; decide)
    ⟨("raw_d", pstr (String.mk (List.replicate 50001 'a'))),
      List.mem_singleton.mpr rfl, hL⟩

/-- C2 witness: the amended size-decrease theorem applied to the concrete
single-field response {"raw_d": 50001 bytes} with max_size_bytes 50000 and
no callback. -/
theorem c2_witness :
    estimate_json_size (pdict (split_large_response [("raw_d", pstr (String.mk (List.replicate 50001 'a')))] 50000
      (none : Option (String → PyVal → OverflowStore × Nat →
        String × (OverflowStore × Nat))) ([], 0)).1) <
      estimate_json_size (pdict [("raw_d", pstr (String.mk (List.replicate 50001 'a')))]) := by
  have hL := raw_d_is_large 50001 (le_refl _)
  have houtk : outKeysNone [("raw_d", pstr (String.mk (List.replicate 50001 'a')))] = ["raw_d" ++ "_omitted"] := by
    rw [outKeysNone_cons, if_pos hL]
    rfl
  have hD := est_pdict_raw_d 50001
  exact c2_size_decrease_amended [("raw_d", pstr (String.mk (List.replicate 50001 'a')))] 50000 "" (fun _ => "") 0 0 [] none
    (Or.inl ⟨rfl, by rw [houtk]; exact List.nodup_singleton _, by rw [houtk]; decide⟩)
    (by simp)
    (fun kv hkv => by
      rw [List.mem_singleton] at hkv
      subst hkv
      show estimate_json_size (pstr "raw_d") ≤ 10000
      rw [est_pstr]
      decide)
    (by omega)
    (by omega)
    ⟨("raw_d", pstr (String.mk (List.replicate 50001 'a'))),
      List.mem_singleton.mpr rfl, hL⟩

end Garmin
